import Mathlib

/-!
# Verification of the xno-connect Nano client library

A shallow embedding of the core algorithms of the `xno-connect` Rust
library: the Blake2b hash (the external `blake2` crate, embedded per
RFC 7693), the Nano base32 address codec (`src/types/account.rs`), the
state-block hasher (`src/blocks/hash.rs`), the Ed25519-Blake2b signing
flow (`src/keys/keypair.rs`), proof-of-work difficulty and search
(`src/work/validate.rs`, `src/work/cpu.rs`), block creation flows
(`src/blocks/state.rs`, `src/wallet/account.rs`, `src/blocks/builder.rs`)
and the `Raw` amount arithmetic (`src/types/amount.rs`).

Bytes are modelled as `Nat` values below 256, byte strings as `List Nat`;
64-bit and 128-bit machine arithmetic is `Nat` with explicit reduction
`% 2 ^ 64` and `% 2 ^ 128` where the Rust code wraps, masks or shifts.
-/

namespace XnoConnect

/-! ## Blake2b (RFC 7693), as computed by the external `blake2` crate

The repository calls `Blake2b::<U5>`, `Blake2b::<U8>`, `Blake2b::<U32>`
and `Blake2b512` from the `blake2` crate.  The crate implements the
unkeyed Blake2b of RFC 7693; the definitions below embed that algorithm
directly: 64-bit words as `Nat` reduced `% 2 ^ 64`, the state vector as a
`List Nat` of length 16. -/

/-- Reduce to a 64-bit machine word. -/
def wrap64 (x : Nat) : Nat := x % 2 ^ 64

/-- 64-bit rotate right by `n` bits (0 < n < 64). -/
def rotr64 (x n : Nat) : Nat := wrap64 (x / 2 ^ n + x % 2 ^ n * 2 ^ (64 - n))

/-- Blake2b initialization vector (RFC 7693 §2.6). -/
def blakeIV : List Nat :=
  [0x6A09E667F3BCC908, 0xBB67AE8584CAA73B, 0x3C6EF372FE94F82B, 0xA54FF53A5F1D36F1,
   0x510E527FADE682D1, 0x9B05688C2B3E6C1F, 0x1F83D9ABFB41BD6B, 0x5BE0CD19137E2179]

/-- Blake2b message schedule permutations (RFC 7693 §2.7). -/
def blakeSigma : List (List Nat) :=
  [[0, 1, 2, 3, 4, 5, 6, 7, 8, 9, 10, 11, 12, 13, 14, 15],
   [14, 10, 4, 8, 9, 15, 13, 6, 1, 12, 0, 2, 11, 7, 5, 3],
   [11, 8, 12, 0, 5, 2, 15, 13, 10, 14, 3, 6, 7, 1, 9, 4],
   [7, 9, 3, 1, 13, 12, 11, 14, 2, 6, 5, 10, 4, 0, 15, 8],
   [9, 0, 5, 7, 2, 4, 10, 15, 14, 1, 11, 12, 6, 8, 3, 13],
   [2, 12, 6, 10, 0, 11, 8, 3, 4, 13, 7, 5, 15, 14, 1, 9],
   [12, 5, 1, 15, 14, 13, 4, 10, 0, 7, 6, 3, 9, 2, 8, 11],
   [13, 11, 7, 14, 12, 1, 3, 9, 5, 0, 15, 4, 8, 6, 2, 10],
   [6, 15, 14, 9, 11, 3, 0, 8, 12, 2, 13, 7, 1, 4, 10, 5],
   [10, 2, 8, 4, 7, 6, 1, 5, 15, 11, 9, 14, 3, 12, 13, 0]]

/-- One quarter of the Blake2b mixing function G (RFC 7693 §3.1): the
two add-xor-rotate steps on `(a, b, c, d)` for one message word, with
rotation `r1` then the second half with word `y` and rotation `r2` done
by two chained calls below. -/
def blakeGHalf (a b c d x : Nat) (r1 r2 : Nat) : Nat × Nat × Nat × Nat :=
  let a2 := wrap64 (a + b + x)
  let d2 := rotr64 (Nat.xor d a2) r1
  let c2 := wrap64 (c + d2)
  let b2 := rotr64 (Nat.xor b c2) r2
  (a2, b2, c2, d2)

/-- The full Blake2b mixing function G (RFC 7693 §3.1) on one column or
diagonal `(a, b, c, d)` with message words `x y`. -/
def blakeG (a b c d x y : Nat) : Nat × Nat × Nat × Nat :=
  let (a1, b1, c1, d1) := blakeGHalf a b c d x 32 24
  blakeGHalf a1 b1 c1 d1 y 16 63

/-- A full Blake2b round: G applied to the four columns then the four
diagonals of the working vector, with schedule row `s` selecting message
words from block `m` (RFC 7693 §3.2). -/
def blakeRound (m : List Nat) (v : List Nat) (s : List Nat) : List Nat :=
  let mi := fun i => m.getD (s.getD i 0) 0
  match v with
  | [v0, v1, v2, v3, v4, v5, v6, v7, v8, v9, v10, v11, v12, v13, v14, v15] =>
    let (v0, v4, v8, v12) := blakeG v0 v4 v8 v12 (mi 0) (mi 1)
    let (v1, v5, v9, v13) := blakeG v1 v5 v9 v13 (mi 2) (mi 3)
    let (v2, v6, v10, v14) := blakeG v2 v6 v10 v14 (mi 4) (mi 5)
    let (v3, v7, v11, v15) := blakeG v3 v7 v11 v15 (mi 6) (mi 7)
    let (v0, v5, v10, v15) := blakeG v0 v5 v10 v15 (mi 8) (mi 9)
    let (v1, v6, v11, v12) := blakeG v1 v6 v11 v12 (mi 10) (mi 11)
    let (v2, v7, v8, v13) := blakeG v2 v7 v8 v13 (mi 12) (mi 13)
    let (v3, v4, v9, v14) := blakeG v3 v4 v9 v14 (mi 14) (mi 15)
    [v0, v1, v2, v3, v4, v5, v6, v7, v8, v9, v10, v11, v12, v13, v14, v15]
  | other => other

/-- Little-endian word value of a byte list (least significant byte first). -/
def leWord (bs : List Nat) : Nat := bs.foldr (fun b acc => b + 256 * acc) 0

/-- Split a (≤ 128 byte) chunk into its 16 little-endian 64-bit words,
zero-padded (RFC 7693 §3.3). -/
def blockWords (chunk : List Nat) : List Nat :=
  (List.range 16).map (fun i => leWord ((chunk.drop (8 * i)).take 8))

/-- The Blake2b compression function F (RFC 7693 §3.2): state `h`
(8 words), message block `m` (16 words), byte offset `t`, finalization
flag `last`. -/
def blakeCompress (h : List Nat) (m : List Nat) (t : Nat) (last : Bool) : List Nat :=
  let v0 := h ++ blakeIV
  let v1 := v0.set 12 (Nat.xor (v0.getD 12 0) (wrap64 t))
  let v2 := if last then v1.set 14 (Nat.xor (v1.getD 14 0) (2 ^ 64 - 1)) else v1
  let vf := (List.range 12).foldl (fun v i => blakeRound m v (blakeSigma.getD (i % 10) [])) v2
  (List.range 8).map (fun i => Nat.xor (h.getD i 0) (Nat.xor (vf.getD i 0) (vf.getD (i + 8) 0)))

/-- Process the message 128 bytes at a time, finalizing on the last
(possibly partial) block (RFC 7693 §3.3, unkeyed).  The first argument
is recursion fuel; `d.length / 128` suffices. -/
def blakeLoop : Nat → List Nat → Nat → List Nat → List Nat
  | 0, h, t, d => blakeCompress h (blockWords d) (t + d.length) true
  | fuel + 1, h, t, d =>
    if d.length ≤ 128 then blakeCompress h (blockWords d) (t + d.length) true
    else
      blakeLoop fuel (blakeCompress h (blockWords (d.take 128)) (t + 128) false)
        (t + 128) (d.drop 128)

/-- The 8 little-endian bytes of a 64-bit word. -/
def wordLEBytes (w : Nat) : List Nat :=
  [w % 256, w / 2 ^ 8 % 256, w / 2 ^ 16 % 256, w / 2 ^ 24 % 256,
   w / 2 ^ 32 % 256, w / 2 ^ 40 % 256, w / 2 ^ 48 % 256, w / 2 ^ 56 % 256]

/-- Unkeyed Blake2b with digest length `nn` bytes over message `d`:
the first `nn` bytes of the little-endian serialization of the final
state, whose first word is offset by the parameter block `0x0101kknn`
(RFC 7693 §2.5, §2.8). -/
def blake2b (nn : Nat) (d : List Nat) : List Nat :=
  let h0 := blakeIV.set 0 (Nat.xor (blakeIV.getD 0 0) (0x01010000 + nn))
  ((blakeLoop (d.length / 128) h0 0 d).foldr (fun w acc => wordLEBytes w ++ acc) []).take nn

/-! ## Byte/number conversions -/

/-- Big-endian value of a byte list. -/
def beNum (l : List Nat) : Nat := l.foldl (fun acc b => acc * 256 + b) 0

/-- The `k` big-endian bytes of `x` (most significant first). -/
def beBytes : Nat → Nat → List Nat
  | 0, _ => []
  | k + 1, x => (x / 2 ^ (8 * k) % 256) :: beBytes k x

/-- Little-endian value of a byte list. -/
def leNum (l : List Nat) : Nat := l.foldr (fun b acc => b + 256 * acc) 0

/-- The `k` little-endian bytes of `x` (least significant first). -/
def leBytes : Nat → Nat → List Nat
  | 0, _ => []
  | k + 1, x => (x % 256) :: leBytes k (x / 256)

/-! ## Address codec (`src/types/account.rs`)

Public keys are 32-byte lists.  The Rust `encode_account` /
`decode_account` pair and their base32 helpers are embedded below;
Rust `x >> n`, `x << n` and `x & (2 ^ n - 1)` on machine words are
rendered as `x / 2 ^ n`, `x * 2 ^ n` and `x % 2 ^ n` (no intermediate
overflows occur: the Rust accumulators hold at most 12 bits). -/

/-- Nano's base32 alphabet `13456789abcdefghijkmnopqrstuwxyz`
(`constants::BASE32_ALPHABET`). -/
def BASE32_ALPHABET : List Char :=
  "13456789abcdefghijkmnopqrstuwxyz".data

/-- `base32_char_value`: the value of a base32 character, accepting both
letter cases; `none` for characters outside the alphabet. -/
def base32_char_value (c : Char) : Option Nat :=
  match c with
  | '1' => some 0
  | '3' => some 1
  | '4' => some 2
  | '5' => some 3
  | '6' => some 4
  | '7' => some 5
  | '8' => some 6
  | '9' => some 7
  | 'a' | 'A' => some 8
  | 'b' | 'B' => some 9
  | 'c' | 'C' => some 10
  | 'd' | 'D' => some 11
  | 'e' | 'E' => some 12
  | 'f' | 'F' => some 13
  | 'g' | 'G' => some 14
  | 'h' | 'H' => some 15
  | 'i' | 'I' => some 16
  | 'j' | 'J' => some 17
  | 'k' | 'K' => some 18
  | 'm' | 'M' => some 19
  | 'n' | 'N' => some 20
  | 'o' | 'O' => some 21
  | 'p' | 'P' => some 22
  | 'q' | 'Q' => some 23
  | 'r' | 'R' => some 24
  | 's' | 'S' => some 25
  | 't' | 'T' => some 26
  | 'u' | 'U' => some 27
  | 'w' | 'W' => some 28
  | 'x' | 'X' => some 29
  | 'y' | 'Y' => some 30
  | 'z' | 'Z' => some 31
  | _ => none

/-- The alphabet character for a 5-bit digit. -/
def base32Char (d : Nat) : Char := BASE32_ALPHABET.getD d ' '

/-- The inner `while bit_count >= 5` loop of `encode_base32_256`: emit
5-bit digits from the top of the accumulator.  The first argument is
recursion fuel (`bitCount` suffices: the loop body decreases `bitCount`
by 5). -/
def encDrain : Nat → Nat → Nat → List Nat
  | 0, _, _ => []
  | fuel + 1, bits, bitCount =>
    if 5 ≤ bitCount then
      (bits / 2 ^ (bitCount - 5) % 32) :: encDrain fuel bits (bitCount - 5)
    else []

/-- The `for &byte in &bytes[1..]` loop of `encode_base32_256`,
producing 5-bit digits; the empty case is the trailing
`if bit_count > 0` flush. -/
def encLoop : List Nat → Nat → Nat → List Nat
  | [], bits, bitCount =>
    if 0 < bitCount then [bits * 2 ^ (5 - bitCount) % 32] else []
  | byte :: rest, bits, bitCount =>
    let bits2 := bits * 2 ^ 8 + byte
    let bc2 := bitCount + 8
    encDrain bc2 bits2 bc2 ++ encLoop rest (bits2 % 2 ^ (bc2 % 5)) (bc2 % 5)

/-- The 52 5-bit digits emitted by `encode_base32_256`: the first
character carries `bytes[0] >> 7`, the second `(bytes[0] >> 2) & 0x1F`,
the rest come from the bit accumulator over `bytes[1..]`. -/
def encode_base32_256_digits : List Nat → List Nat
  | [] => []
  | b0 :: rest => (b0 / 2 ^ 7) :: (b0 / 2 ^ 2 % 32) :: encLoop rest (b0 % 2 ^ 2) 2

/-- `encode_base32_256`: 32 bytes to 52 base32 characters (4 leading pad
bits). -/
def encode_base32_256 (bytes : List Nat) : List Char :=
  (encode_base32_256_digits bytes).map base32Char

/-- Tail of `decode_base32_256`'s character loop, after the `i == 0`
special case has consumed the first character: accumulate 5 bits per
character, emitting a byte whenever 8 are available and fewer than 32
bytes have been produced; at the end, succeed iff exactly 32 bytes were
produced. -/
def decLoopTail : List Char → Nat → Nat → Nat → Option (List Nat)
  | [], _, _, byteIdx => if byteIdx = 32 then some [] else none
  | c :: rest, bits, bitCount, byteIdx =>
    match base32_char_value c with
    | none => none
    | some value =>
      let bits2 := bits * 2 ^ 5 + value
      let bc2 := bitCount + 5
      if 8 ≤ bc2 ∧ byteIdx < 32 then
        (decLoopTail rest (bits2 % 2 ^ (bc2 - 8)) (bc2 - 8) (byteIdx + 1)).map
          (fun out => (bits2 / 2 ^ (bc2 - 8) % 256) :: out)
      else decLoopTail rest (bits2 % 2 ^ bc2) bc2 byteIdx

/-- `decode_base32_256`: 52 base32 characters to 32 bytes.  The first
character contributes only its lowest bit (`value & 0x01`); the
remaining characters run through the accumulator loop. -/
def decode_base32_256 (s : List Char) : Option (List Nat) :=
  if s.length = 52 then
    match s with
    | [] => none
    | c :: rest =>
      match base32_char_value c with
      | none => none
      | some value => decLoopTail rest (value % 2) 1 0
  else none

/-- `encode_base32_40`: 5 bytes to 8 base32 characters, emitted from the
40-bit composition `b0<<32 | b1<<24 | b2<<16 | b3<<8 | b4` five bits at
a time, most significant first. -/
def encode_base32_40 (bytes : List Nat) : List Char :=
  match bytes with
  | [b0, b1, b2, b3, b4] =>
    let combined := b0 * 2 ^ 32 + b1 * 2 ^ 24 + b2 * 2 ^ 16 + b3 * 2 ^ 8 + b4
    [base32Char (combined / 2 ^ 35 % 32), base32Char (combined / 2 ^ 30 % 32),
     base32Char (combined / 2 ^ 25 % 32), base32Char (combined / 2 ^ 20 % 32),
     base32Char (combined / 2 ^ 15 % 32), base32Char (combined / 2 ^ 10 % 32),
     base32Char (combined / 2 ^ 5 % 32), base32Char (combined % 32)]
  | _ => []

/-- `decode_base32_40`: 8 base32 characters to 5 bytes via the 40-bit
accumulator. -/
def decode_base32_40 (s : List Char) : Option (List Nat) :=
  match s with
  | [c0, c1, c2, c3, c4, c5, c6, c7] =>
    match base32_char_value c0, base32_char_value c1, base32_char_value c2,
        base32_char_value c3, base32_char_value c4, base32_char_value c5,
        base32_char_value c6, base32_char_value c7 with
    | some v0, some v1, some v2, some v3, some v4, some v5, some v6, some v7 =>
      let combined := ((((((v0 * 2 ^ 5 + v1) * 2 ^ 5 + v2) * 2 ^ 5 + v3) * 2 ^ 5 + v4)
        * 2 ^ 5 + v5) * 2 ^ 5 + v6) * 2 ^ 5 + v7
      some [combined / 2 ^ 32 % 256, combined / 2 ^ 24 % 256, combined / 2 ^ 16 % 256,
        combined / 2 ^ 8 % 256, combined % 256]
    | _, _, _, _, _, _, _, _ => none
  | _ => none

/-- `AccountError` (`src/error.rs`): the typed reasons `decode_account`
can fail. -/
inductive AccountError
  | InvalidPrefix
  | InvalidLength
  | InvalidEncoding
  | ChecksumMismatch
deriving DecidableEq, Repr

instance exceptDecEq {ε α : Type} [DecidableEq ε] [DecidableEq α] :
    DecidableEq (Except ε α) := fun x y =>
  match x, y with
  | .ok a, .ok b =>
    if h : a = b then isTrue (by rw [h]) else isFalse (fun hc => by cases hc; exact h rfl)
  | .error a, .error b =>
    if h : a = b then isTrue (by rw [h]) else isFalse (fun hc => by cases hc; exact h rfl)
  | .ok _, .error _ => isFalse (fun hc => by cases hc)
  | .error _, .ok _ => isFalse (fun hc => by cases hc)

/-- `constants::ACCOUNT_PREFIX_NANO`. -/
def ACCOUNT_PREFIX_NANO : List Char := ['n', 'a', 'n', 'o', '_']

/-- `constants::ACCOUNT_PREFIX_XNO`. -/
def ACCOUNT_PREFIX_XNO : List Char := ['x', 'n', 'o', '_']

/-- Rust `str::strip_prefix`. -/
def stripPrefix (p s : List Char) : Option (List Char) :=
  if p.isPrefixOf s then some (s.drop p.length) else none

/-- `encode_account`: Blake2b-40 checksum of the public key, byte order
reversed, appended in base32 to the base32 payload, under the `nano_`
prefix. -/
def encode_account (pk : List Nat) : List Char :=
  let checksum := (blake2b 5 pk).reverse
  ACCOUNT_PREFIX_NANO ++ encode_base32_256 pk ++ encode_base32_40 checksum

/-- Body of `decode_account` after prefix stripping: require 60 data
characters, decode the 52-character payload and the 8-character
checksum, reverse the checksum bytes and compare with the recomputed
Blake2b-40 of the recovered public key. -/
def decode_account_data (data : List Char) : Except AccountError (List Nat) :=
  if data.length ≠ 60 then .error .InvalidLength
  else
    match decode_base32_256 (data.take 52) with
    | none => .error .InvalidEncoding
    | some public_key_bytes =>
      match decode_base32_40 (data.drop 52) with
      | none => .error .InvalidEncoding
      | some checksum_decoded =>
        if checksum_decoded.reverse = blake2b 5 public_key_bytes then
          .ok public_key_bytes
        else .error .ChecksumMismatch

/-- `decode_account`, prefix dispatch: strip `nano_` or `xno_` and hand
the 60 data characters to `decode_account_data`. -/
def decode_account (address : List Char) : Except AccountError (List Nat) :=
  match stripPrefix ACCOUNT_PREFIX_NANO address with
  | some data => decode_account_data data
  | none =>
    match stripPrefix ACCOUNT_PREFIX_XNO address with
    | some data => decode_account_data data
    | none => .error .InvalidPrefix

/-! ## Bit-stream characterization of the base32 codec

The encoder walks the 260-bit stream `pad ‖ pk` MSB-first in 5-bit
digits; the decoder walks it back in 8-bit bytes.  `msbChunks x k` is
the list of the `k` 5-bit digits of the low `5 * k` bits of `x`, most
significant digit first; `beBytes` plays the same role for bytes. -/

/-- The `k` 5-bit big-endian digits of the low `5 * k` bits of `x`. -/
def msbChunks : Nat → Nat → List Nat
  | _, 0 => []
  | x, k + 1 => (x / 2 ^ (5 * k) % 32) :: msbChunks x k

/-- Radix-32 value of a digit list. -/
def b32Num (vs : List Nat) : Nat := vs.foldl (fun acc v => acc * 32 + v) 0

theorem msbChunks_length (x k : Nat) : (msbChunks x k).length = k := by
  induction k generalizing x with
  | zero => rfl
  | succ k ih => simp [msbChunks, ih]

/-- Two numbers with the same 5-bit windows below `5 * k` chunk
identically. -/
theorem msbChunks_congr (a b k : Nat)
    (h : ∀ j, j < k → a / 2 ^ (5 * j) % 32 = b / 2 ^ (5 * j) % 32) :
    msbChunks a k = msbChunks b k := by
  induction k with
  | zero => rfl
  | succ k ih =>
    rw [msbChunks, msbChunks, h k (Nat.lt_succ_self k),
      ih (fun j hj => h j (Nat.lt_succ_of_lt hj))]

theorem msbChunks_append (x k1 k2 : Nat) :
    msbChunks x (k1 + k2) = msbChunks (x / 2 ^ (5 * k2)) k1 ++ msbChunks x k2 := by
  induction k1 with
  | zero => simp [msbChunks]
  | succ k1 ih =>
    rw [show k1 + 1 + k2 = (k1 + k2) + 1 by omega, msbChunks, msbChunks, ih,
      Nat.div_div_eq_div_mul, ← Nat.pow_add, show 5 * k2 + 5 * k1 = 5 * (k1 + k2) by ring,
      List.cons_append]

/-- Digits read only bits of `x` below the modulus: chunking
`(x % 2 ^ (5 * k + r)) / 2 ^ r` agrees with chunking `x / 2 ^ r`. -/
theorem msbChunks_mod (x k r : Nat) :
    msbChunks (x % 2 ^ (5 * k + r) / 2 ^ r) k = msbChunks (x / 2 ^ r) k := by
  refine msbChunks_congr _ _ k (fun j hj => ?_)
  rw [Nat.div_div_eq_div_mul, Nat.div_div_eq_div_mul, ← Nat.pow_add]
  have hsplit : (2 : Nat) ^ (5 * k + r) = 2 ^ (r + 5 * j) * 2 ^ (5 * k - 5 * j) := by
    rw [← Nat.pow_add]
    congr 1
    omega
  rw [hsplit, Nat.mod_mul_right_div_self]
  have hdvd : (32 : Nat) ∣ 2 ^ (5 * k - 5 * j) := by
    rw [show (32 : Nat) = 2 ^ 5 by norm_num]
    exact Nat.pow_dvd_pow 2 (by omega)
  exact Nat.mod_mod_of_dvd _ hdvd

theorem b32Num_foldl (vs : List Nat) : ∀ a : Nat,
    vs.foldl (fun acc v => acc * 32 + v) a = a * 32 ^ vs.length + b32Num vs := by
  induction vs with
  | nil => intro a; simp [b32Num]
  | cons w ws ih =>
    intro a
    have hb : b32Num (w :: ws) = w * 32 ^ ws.length + b32Num ws := by
      show List.foldl (fun acc v => acc * 32 + v) (0 * 32 + w) ws = _
      rw [ih]
      norm_num
    rw [List.foldl_cons, ih, hb, List.length_cons]
    ring

theorem b32Num_cons (v : Nat) (rest : List Nat) :
    b32Num (v :: rest) = v * 32 ^ rest.length + b32Num rest := by
  show List.foldl (fun acc v => acc * 32 + v) (0 * 32 + v) rest = _
  rw [b32Num_foldl]
  norm_num

theorem b32Num_lt (vs : List Nat) (h : ∀ v ∈ vs, v < 32) :
    b32Num vs < 32 ^ vs.length := by
  induction vs with
  | nil => simp [b32Num]
  | cons v rest ih =>
    have hv : v < 32 := h v (List.mem_cons_self ..)
    have hr : b32Num rest < 32 ^ rest.length :=
      ih (fun x hx => h x (List.mem_cons_of_mem _ hx))
    rw [b32Num_cons, List.length_cons, Nat.pow_succ]
    calc v * 32 ^ rest.length + b32Num rest < v * 32 ^ rest.length + 32 ^ rest.length := by
          omega
      _ = (v + 1) * 32 ^ rest.length := by ring
      _ ≤ 32 * 32 ^ rest.length := Nat.mul_le_mul_right _ (by omega)
      _ = 32 ^ rest.length * 32 := by ring

theorem pow32_eq (k : Nat) : (32 : Nat) ^ k = 2 ^ (5 * k) := by
  rw [show (32 : Nat) = 2 ^ 5 by norm_num, ← Nat.pow_mul]

theorem b32Num_msbChunks (x k : Nat) : b32Num (msbChunks x k) = x % 2 ^ (5 * k) := by
  induction k with
  | zero => simp [msbChunks, b32Num, Nat.mod_one]
  | succ k ih =>
    rw [msbChunks, b32Num_cons, msbChunks_length, ih,
      show 5 * (k + 1) = 5 * k + 5 by ring, Nat.pow_add,
      show (2 : Nat) ^ 5 = 32 by norm_num, Nat.mod_mul, pow32_eq]
    ring

theorem beNum_foldl (l : List Nat) : ∀ a : Nat,
    l.foldl (fun acc b => acc * 256 + b) a = a * 256 ^ l.length + beNum l := by
  induction l with
  | nil => intro a; simp [beNum]
  | cons b rest ih =>
    intro a
    have hb : beNum (b :: rest) = b * 256 ^ rest.length + beNum rest := by
      show List.foldl (fun acc b => acc * 256 + b) (0 * 256 + b) rest = _
      rw [ih]
      norm_num
    rw [List.foldl_cons, ih, hb, List.length_cons]
    ring

theorem beNum_cons (b : Nat) (rest : List Nat) :
    beNum (b :: rest) = b * 256 ^ rest.length + beNum rest := by
  show List.foldl (fun acc b => acc * 256 + b) (0 * 256 + b) rest = _
  rw [beNum_foldl]
  norm_num

theorem pow256_eq (k : Nat) : (256 : Nat) ^ k = 2 ^ (8 * k) := by
  rw [show (256 : Nat) = 2 ^ 8 by norm_num, ← Nat.pow_mul]

theorem beNum_lt (l : List Nat) (h : ∀ b ∈ l, b < 256) :
    beNum l < 2 ^ (8 * l.length) := by
  induction l with
  | nil => simp [beNum]
  | cons b rest ih =>
    have hb : b < 256 := h b (List.mem_cons_self ..)
    have hr : beNum rest < 2 ^ (8 * rest.length) :=
      ih (fun x hx => h x (List.mem_cons_of_mem _ hx))
    rw [beNum_cons, pow256_eq, List.length_cons,
      show 8 * (rest.length + 1) = 8 * rest.length + 8 by ring, Nat.pow_add]
    calc b * 2 ^ (8 * rest.length) + beNum rest
        < b * 2 ^ (8 * rest.length) + 2 ^ (8 * rest.length) := by omega
      _ = (b + 1) * 2 ^ (8 * rest.length) := by ring
      _ ≤ 256 * 2 ^ (8 * rest.length) := Nat.mul_le_mul_right _ (by omega)
      _ = 2 ^ (8 * rest.length) * 2 ^ 8 := by ring_nf
      _ ≤ 2 ^ (8 * rest.length) * 2 ^ 8 := le_refl _

/-- `(a · 2^m + r) / 2^m = a` when `r < 2^m`. -/
theorem split_div_pow (a r m : Nat) (hr : r < 2 ^ m) : (a * 2 ^ m + r) / 2 ^ m = a := by
  rw [Nat.mul_comm a, Nat.mul_add_div (Nat.pos_pow_of_pos m (by omega)),
    Nat.div_eq_of_lt hr, Nat.add_zero]

/-- `(a · 2^m + r) % 2^(j+m) = (a % 2^j) · 2^m + r` when `r < 2^m`. -/
theorem split_mod_pow (a r m j : Nat) (hr : r < 2 ^ m) :
    (a * 2 ^ m + r) % 2 ^ (j + m) = a % 2 ^ j * 2 ^ m + r := by
  rw [show j + m = m + j by ring, Nat.pow_add, Nat.mod_mul]
  have h1 : (a * 2 ^ m + r) % 2 ^ m = r := by
    rw [Nat.mul_comm a, Nat.mul_add_mod, Nat.mod_eq_of_lt hr]
  have h2 : (a * 2 ^ m + r) / 2 ^ m = a := split_div_pow a r m hr
  rw [h1, h2]
  ring

theorem encDrain_spec : ∀ (fuel bits bc : Nat), bc ≤ fuel →
    encDrain fuel bits bc = msbChunks (bits / 2 ^ (bc % 5)) (bc / 5) := by
  intro fuel
  induction fuel with
  | zero =>
    intro bits bc h
    have h0 : bc = 0 := by omega
    subst h0
    rfl
  | succ fuel ih =>
    intro bits bc h
    unfold encDrain
    by_cases h5 : 5 ≤ bc
    · rw [if_pos h5, ih bits (bc - 5) (by omega)]
      have hm : (bc - 5) % 5 = bc % 5 := by omega
      have hd : bc / 5 = (bc - 5) / 5 + 1 := by omega
      rw [hm, hd, msbChunks, Nat.div_div_eq_div_mul, ← Nat.pow_add,
        show bc % 5 + 5 * ((bc - 5) / 5) = bc - 5 by omega]
    · rw [if_neg h5]
      have hd : bc / 5 = 0 := by omega
      rw [hd]
      rfl

/-- Characterization of the encoder byte loop: from a state carrying the
low `bc` bits `bits` of the stream so far, processing bytes `l` emits
the 5-bit digits of `bits ‖ l`, with the final flush digit padded with
low zeros. -/
theorem encLoop_spec (l : List Nat) : ∀ (bits bc : Nat), bc < 5 → bits < 2 ^ bc →
    (∀ b ∈ l, b < 256) →
    encLoop l bits bc =
      msbChunks ((bits * 2 ^ (8 * l.length) + beNum l) / 2 ^ ((bc + 8 * l.length) % 5))
          ((bc + 8 * l.length) / 5)
        ++ (if (bc + 8 * l.length) % 5 = 0 then []
            else [(bits * 2 ^ (8 * l.length) + beNum l) % 2 ^ ((bc + 8 * l.length) % 5)
                    * 2 ^ (5 - (bc + 8 * l.length) % 5) % 32]) := by
  induction l with
  | nil =>
    intro bits bc hbc hbits _
    have hmod : bc % 5 = bc := Nat.mod_eq_of_lt hbc
    have hdiv : bc / 5 = 0 := Nat.div_eq_of_lt hbc
    show (if 0 < bc then [bits * 2 ^ (5 - bc) % 32] else []) = _
    simp only [List.length_nil, Nat.mul_zero, Nat.add_zero, Nat.pow_zero, Nat.mul_one, hmod, hdiv]
    have hben : beNum ([] : List Nat) = 0 := rfl
    rw [hben, Nat.add_zero, Nat.mod_eq_of_lt hbits]
    by_cases h0 : bc = 0
    · subst h0
      rfl
    · rw [if_pos (by omega), if_neg h0]
      rfl
  | cons byte rest ih =>
    intro bits bc hbc hbits hbytes
    have hbyte : byte < 256 := hbytes byte (List.mem_cons_self ..)
    have hrest : ∀ b ∈ rest, b < 256 := fun x hx => hbytes x (List.mem_cons_of_mem _ hx)
    -- abbreviations
    set L2 := rest.length with hL2
    set B := bits * 2 ^ 8 + byte with hB
    set n2r := (bc + 8) % 5 with hn2r
    set X := bits * 2 ^ (8 * (byte :: rest).length) + beNum (byte :: rest) with hX
    have hlen : (byte :: rest).length = L2 + 1 := rfl
    have hXB : X = B * 2 ^ (8 * L2) + beNum rest := by
      rw [hX, hB, hlen, beNum_cons, pow256_eq,
        show 8 * (L2 + 1) = 8 + 8 * L2 by ring, Nat.pow_add]
      ring
    have hbr : beNum rest < 2 ^ (8 * L2) := beNum_lt rest hrest
    -- the drain and the recursive call
    show encDrain (bc + 8) B (bc + 8) ++ encLoop rest (B % 2 ^ n2r) n2r = _
    rw [encDrain_spec (bc + 8) B (bc + 8) (le_refl _),
      ih (B % 2 ^ n2r) n2r (Nat.mod_lt _ (by omega))
        (Nat.mod_lt _ (Nat.pos_pow_of_pos _ (by omega))) hrest]
    -- arithmetic facts
    have hn : bc + 8 * (byte :: rest).length = (bc + 8) + 8 * L2 := by
      rw [hlen]; ring
    have hmod5 : ((bc + 8) + 8 * L2) % 5 = (n2r + 8 * L2) % 5 := by omega
    have hdiv5 : ((bc + 8) + 8 * L2) / 5 = (bc + 8) / 5 + (n2r + 8 * L2) / 5 := by omega
    have hX2 : B % 2 ^ n2r * 2 ^ (8 * L2) + beNum rest = X % 2 ^ (n2r + 8 * L2) := by
      rw [hXB]
      exact (split_mod_pow B (beNum rest) (8 * L2) n2r hbr).symm
    -- rewrite the right-hand side into the three assembled pieces
    rw [hn, hmod5, hdiv5, msbChunks_append]
    -- (E1) the drained digits are the high digits of X
    have hXdiv : X / 2 ^ ((n2r + 8 * L2) % 5) / 2 ^ (5 * ((n2r + 8 * L2) / 5))
        = B / 2 ^ n2r := by
      rw [Nat.div_div_eq_div_mul, ← Nat.pow_add,
        show (n2r + 8 * L2) % 5 + 5 * ((n2r + 8 * L2) / 5) = 8 * L2 + n2r by omega,
        Nat.pow_add, ← Nat.div_div_eq_div_mul, hXB, split_div_pow B (beNum rest) (8 * L2) hbr]
    -- (E2) the recursive digits are the low digits of X
    have hXmod : msbChunks ((B % 2 ^ n2r * 2 ^ (8 * L2) + beNum rest)
          / 2 ^ ((n2r + 8 * L2) % 5)) ((n2r + 8 * L2) / 5)
        = msbChunks (X / 2 ^ ((n2r + 8 * L2) % 5)) ((n2r + 8 * L2) / 5) := by
      rw [hX2]
      have := msbChunks_mod X ((n2r + 8 * L2) / 5) ((n2r + 8 * L2) % 5)
      rw [show 5 * ((n2r + 8 * L2) / 5) + (n2r + 8 * L2) % 5 = n2r + 8 * L2 by omega] at this
      exact this
    -- (E3) the flush digits agree
    have hTail : (B % 2 ^ n2r * 2 ^ (8 * L2) + beNum rest) % 2 ^ ((n2r + 8 * L2) % 5)
        = X % 2 ^ ((n2r + 8 * L2) % 5) := by
      rw [hX2]
      exact Nat.mod_mod_of_dvd _ (Nat.pow_dvd_pow 2 (Nat.mod_le _ _))
    rw [hXdiv, hXmod, hTail, List.append_assoc]

/-- The encoder's 52 digits are the leading pad bit `N / 2^255` followed
by the 51 5-bit digits of the public key value `N` (big-endian). -/
theorem encode_digits_spec (b0 : Nat) (rest : List Nat) (hlen : rest.length = 31)
    (hb0 : b0 < 256) (hb : ∀ b ∈ rest, b < 256) :
    encode_base32_256_digits (b0 :: rest)
      = (beNum (b0 :: rest) / 2 ^ 255) :: msbChunks (beNum (b0 :: rest)) 51 := by
  have hN : beNum (b0 :: rest) = b0 * 2 ^ 248 + beNum rest := by
    rw [beNum_cons, pow256_eq, hlen]
  have hr : beNum rest < 2 ^ 248 := by
    have := beNum_lt rest hb
    rw [hlen] at this
    exact this
  show (b0 / 2 ^ 7) :: (b0 / 2 ^ 2 % 32) :: encLoop rest (b0 % 2 ^ 2) 2 = _
  rw [encLoop_spec rest (b0 % 2 ^ 2) 2 (by omega) (Nat.mod_lt _ (by omega)) hb, hlen]
  have hmod : (2 + 8 * 31) % 5 = 0 := by norm_num
  have hdiv : (2 + 8 * 31) / 5 = 50 := by norm_num
  rw [hmod, hdiv, if_pos rfl, List.append_nil, Nat.pow_zero, Nat.div_one]
  have hX : b0 % 2 ^ 2 * 2 ^ (8 * 31) + beNum rest = beNum (b0 :: rest) % 2 ^ 250 := by
    rw [hN, show (250 : Nat) = 2 + 248 by norm_num,
      show (8 : Nat) * 31 = 248 by norm_num]
    exact (split_mod_pow b0 (beNum rest) 248 2 hr).symm
  rw [hX]
  have hchunks : msbChunks (beNum (b0 :: rest) % 2 ^ 250) 50
      = msbChunks (beNum (b0 :: rest)) 50 := by
    have := msbChunks_mod (beNum (b0 :: rest)) 50 0
    rw [Nat.pow_zero, Nat.div_one, Nat.div_one, Nat.add_zero] at this
    exact this
  rw [hchunks]
  have hb0N : b0 = beNum (b0 :: rest) / 2 ^ 248 := by
    rw [hN, split_div_pow b0 (beNum rest) 248 hr]
  have h51 : msbChunks (beNum (b0 :: rest)) 51
      = (beNum (b0 :: rest) / 2 ^ 250 % 32) :: msbChunks (beNum (b0 :: rest)) 50 := by
    rw [show (51 : Nat) = 50 + 1 from rfl, msbChunks]
  rw [h51]
  have hhead1 : b0 / 2 ^ 7 = beNum (b0 :: rest) / 2 ^ 255 := by
    rw [show (255 : Nat) = 248 + 7 by norm_num, Nat.pow_add, ← Nat.div_div_eq_div_mul, ← hb0N]
  have hhead2 : b0 / 2 ^ 2 % 32 = beNum (b0 :: rest) / 2 ^ 250 % 32 := by
    rw [show (250 : Nat) = 248 + 2 by norm_num, Nat.pow_add, ← Nat.div_div_eq_div_mul, ← hb0N]
  rw [hhead1, hhead2]

theorem msbChunks_lt (x k : Nat) : ∀ d ∈ msbChunks x k, d < 32 := by
  induction k with
  | zero => intro d hd; cases hd
  | succ k ih =>
    intro d hd
    rw [msbChunks] at hd
    rcases List.mem_cons.mp hd with h | h
    · subst h; exact Nat.mod_lt _ (by omega)
    · exact ih d h

/-- `base32_char_value` is a left inverse of the alphabet lookup. -/
theorem base32_char_value_base32Char (d : Nat) (hd : d < 32) :
    base32_char_value (base32Char d) = some d := by
  interval_cases d <;> rfl

theorem base32_char_value_lt (c : Char) (v : Nat) (h : base32_char_value c = some v) :
    v < 32 := by
  unfold base32_char_value at h
  split at h <;> first | (injection h with h2; omega) | injection h

theorem beBytes_length (k x : Nat) : (beBytes k x).length = k := by
  induction k generalizing x with
  | zero => rfl
  | succ k ih => simp [beBytes, ih]

theorem beBytes_lt (k x : Nat) : ∀ b ∈ beBytes k x, b < 256 := by
  induction k generalizing x with
  | zero => intro b hb; cases hb
  | succ k ih =>
    intro b hb
    rw [beBytes] at hb
    rcases List.mem_cons.mp hb with h | h
    · subst h; exact Nat.mod_lt _ (by omega)
    · exact ih x b h

theorem beBytes_congr (a b k : Nat)
    (h : ∀ j, j < k → a / 2 ^ (8 * j) % 256 = b / 2 ^ (8 * j) % 256) :
    beBytes k a = beBytes k b := by
  induction k with
  | zero => rfl
  | succ k ih =>
    rw [beBytes, beBytes, h k (Nat.lt_succ_self k),
      ih (fun j hj => h j (Nat.lt_succ_of_lt hj))]

/-- `beBytes k` only reads the low `8 * k` bits. -/
theorem beBytes_mod (x k : Nat) : beBytes k (x % 2 ^ (8 * k)) = beBytes k x := by
  refine beBytes_congr _ _ k (fun j hj => ?_)
  have hsplit : (2 : Nat) ^ (8 * k) = 2 ^ (8 * j) * 2 ^ (8 * k - 8 * j) := by
    rw [← Nat.pow_add]
    congr 1
    omega
  rw [hsplit, Nat.mod_mul_right_div_self]
  have hdvd : (256 : Nat) ∣ 2 ^ (8 * k - 8 * j) := by
    rw [show (256 : Nat) = 2 ^ 8 by norm_num]
    exact Nat.pow_dvd_pow 2 (by omega)
  exact Nat.mod_mod_of_dvd _ hdvd

/-- `beBytes_mod` with the bit count given by an equation. -/
theorem beBytes_mod2 (x k m : Nat) (h : 8 * k = m) :
    beBytes k (x % 2 ^ m) = beBytes k x := by
  subst h
  exact beBytes_mod x k

/-- Byte lists below 256 round-trip through their big-endian value. -/
theorem beBytes_beNum (l : List Nat) (h : ∀ b ∈ l, b < 256) :
    beBytes l.length (beNum l) = l := by
  induction l with
  | nil => rfl
  | cons b rest ih =>
    have hb : b < 256 := h b (List.mem_cons_self ..)
    have hrl : beNum rest < 2 ^ (8 * rest.length) :=
      beNum_lt rest (fun x hx => h x (List.mem_cons_of_mem _ hx))
    have hN : beNum (b :: rest) = b * 2 ^ (8 * rest.length) + beNum rest := by
      rw [beNum_cons, pow256_eq]
    rw [List.length_cons, beBytes, hN, split_div_pow b (beNum rest) _ hrl,
      Nat.mod_eq_of_lt hb]
    have htail : beBytes rest.length (b * 2 ^ (8 * rest.length) + beNum rest)
        = beBytes rest.length (beNum rest) := by
      rw [← beBytes_mod (b * 2 ^ (8 * rest.length) + beNum rest) rest.length,
        Nat.mul_comm b, Nat.mul_add_mod, Nat.mod_eq_of_lt hrl]
    rw [htail, ih (fun x hx => h x (List.mem_cons_of_mem _ hx))]

/-- The big-endian value of `beBytes k x` recovers `x`'s low bits. -/
theorem beNum_beBytes (k x : Nat) : beNum (beBytes k x) = x % 2 ^ (8 * k) := by
  induction k with
  | zero => simp [beBytes, beNum, Nat.mod_one]
  | succ k ih =>
    rw [beBytes, beNum_cons, beBytes_length, ih,
      show 8 * (k + 1) = 8 * k + 8 by ring, Nat.pow_add,
      show (2 : Nat) ^ 8 = 256 by norm_num, Nat.mod_mul, pow256_eq]
    ring

/-- One step of the decoder loop on a character of known value. -/
theorem decLoopTail_cons (c : Char) (ct : List Char) (bits bc byteIdx v : Nat)
    (hcv : base32_char_value c = some v) :
    decLoopTail (c :: ct) bits bc byteIdx =
      if 8 ≤ bc + 5 ∧ byteIdx < 32 then
        (decLoopTail ct ((bits * 2 ^ 5 + v) % 2 ^ (bc + 5 - 8)) (bc + 5 - 8) (byteIdx + 1)).map
          (fun out => ((bits * 2 ^ 5 + v) / 2 ^ (bc + 5 - 8) % 256) :: out)
      else decLoopTail ct ((bits * 2 ^ 5 + v) % 2 ^ (bc + 5)) (bc + 5) byteIdx := by
  simp only [decLoopTail, hcv]

/-- Success characterization of the decoder loop: with `vs` the values
of the remaining characters and the arithmetic side conditions of a
complete 32-byte decode, the loop returns the big-endian bytes of the
reassembled bit stream. -/
theorem decLoopTail_spec : ∀ (cs : List Char) (vs : List Nat) (bits bc byteIdx : Nat),
    cs.map base32_char_value = vs.map some →
    (∀ v ∈ vs, v < 32) → bc < 8 → bits < 2 ^ bc →
    (bc + 5 * vs.length) % 8 = 0 →
    byteIdx + (bc + 5 * vs.length) / 8 = 32 →
    decLoopTail cs bits bc byteIdx =
      some (beBytes ((bc + 5 * vs.length) / 8) (bits * 2 ^ (5 * vs.length) + b32Num vs)) := by
  intro cs
  induction cs with
  | nil =>
    intro vs bits bc byteIdx hmap hvs hbc hbits hmod hidx
    have hvs0 : vs = [] := by
      cases vs with
      | nil => rfl
      | cons v vt => simp at hmap
    subst hvs0
    simp only [List.length_nil, Nat.mul_zero, Nat.add_zero] at hmod hidx
    have hbc0 : bc = 0 := by omega
    subst hbc0
    have hbi : byteIdx = 32 := by omega
    subst hbi
    show (if (32 : Nat) = 32 then some [] else none) = _
    rw [if_pos rfl]
    norm_num [beBytes]
  | cons c ct ih =>
    intro vs bits bc byteIdx hmap hvs hbc hbits hmod hidx
    cases vs with
    | nil => simp at hmap
    | cons v vt =>
      simp only [List.map_cons, List.cons.injEq] at hmap
      obtain ⟨hcv, hmap2⟩ := hmap
      have hv : v < 32 := hvs v (List.mem_cons_self ..)
      have hvt : ∀ w ∈ vt, w < 32 := fun w hw => hvs w (List.mem_cons_of_mem _ hw)
      have hbits2 : bits * 2 ^ 5 + v < 2 ^ (bc + 5) := by
        calc bits * 2 ^ 5 + v < (bits + 1) * 2 ^ 5 := by omega
          _ ≤ 2 ^ bc * 2 ^ 5 := Nat.mul_le_mul_right _ (by omega)
          _ = 2 ^ (bc + 5) := (Nat.pow_add 2 bc 5).symm
      rw [decLoopTail_cons c ct bits bc byteIdx v hcv]
      simp only [List.length_cons]
      rw [List.length_cons] at hmod hidx
      have hXeq : (bits * 2 ^ 5 + v) * 2 ^ (5 * vt.length) + b32Num vt
          = bits * 2 ^ (5 * (vt.length + 1)) + b32Num (v :: vt) := by
        rw [b32Num_cons, pow32_eq, show 5 * (vt.length + 1) = 5 + 5 * vt.length by ring,
          Nat.pow_add]
        ring
      by_cases h8 : 8 ≤ bc + 5
      · have hone : 1 ≤ (bc + 5 * (vt.length + 1)) / 8 := by
          refine (Nat.one_le_div_iff (by omega)).mpr ?_
          omega
        have hbi : byteIdx < 32 := by omega
        rw [if_pos ⟨h8, hbi⟩]
        rw [ih vt ((bits * 2 ^ 5 + v) % 2 ^ (bc + 5 - 8)) (bc + 5 - 8) (byteIdx + 1) hmap2 hvt
          (by omega) (Nat.mod_lt _ (Nat.pos_pow_of_pos _ (by omega)))
          (by omega) (by omega)]
        rw [Option.map_some']
        congr 1
        have hKeq : (bc + 5 * (vt.length + 1)) / 8 = (bc + 5 - 8 + 5 * vt.length) / 8 + 1 := by
          omega
        have h8K : 8 * ((bc + 5 - 8 + 5 * vt.length) / 8) = bc + 5 - 8 + 5 * vt.length := by
          omega
        have hbnum : b32Num vt < 2 ^ (5 * vt.length) := by
          have := b32Num_lt vt hvt
          rw [pow32_eq] at this
          exact this
        have hhead : (bits * 2 ^ (5 * (vt.length + 1)) + b32Num (v :: vt))
              / 2 ^ (8 * ((bc + 5 - 8 + 5 * vt.length) / 8)) % 256
            = (bits * 2 ^ 5 + v) / 2 ^ (bc + 5 - 8) % 256 := by
          rw [h8K, ← hXeq, show bc + 5 - 8 + 5 * vt.length = 5 * vt.length + (bc + 5 - 8) by ring,
            Nat.pow_add, ← Nat.div_div_eq_div_mul,
            split_div_pow (bits * 2 ^ 5 + v) (b32Num vt) (5 * vt.length) hbnum]
        have htail : beBytes ((bc + 5 - 8 + 5 * vt.length) / 8)
              ((bits * 2 ^ 5 + v) % 2 ^ (bc + 5 - 8) * 2 ^ (5 * vt.length) + b32Num vt)
            = beBytes ((bc + 5 - 8 + 5 * vt.length) / 8)
              (bits * 2 ^ (5 * (vt.length + 1)) + b32Num (v :: vt)) := by
          rw [← hXeq,
            ← split_mod_pow (bits * 2 ^ 5 + v) (b32Num vt) (5 * vt.length) (bc + 5 - 8) hbnum,
            beBytes_mod2 _ _ _ h8K]
        rw [hKeq, beBytes, hhead, htail]
      · rw [if_neg (by omega)]
        have hb2 : (bits * 2 ^ 5 + v) % 2 ^ (bc + 5) = bits * 2 ^ 5 + v :=
          Nat.mod_eq_of_lt hbits2
        rw [hb2, ih vt (bits * 2 ^ 5 + v) (bc + 5) byteIdx hmap2 hvt (by omega) hbits2
          (by omega) (by omega)]
        rw [hXeq, show bc + 5 + 5 * vt.length = bc + 5 * (vt.length + 1) by ring]

/-- Mapping digits through the alphabet and back is the identity. -/
theorem map_char_value_map_base32Char (vs : List Nat) (h : ∀ v ∈ vs, v < 32) :
    (vs.map base32Char).map base32_char_value = vs.map some := by
  rw [List.map_map]
  exact List.map_congr_left (fun v hv => base32_char_value_base32Char v (h v hv))

/-- Unfolding `decode_base32_256` on a 52-character list with a valid
first character. -/
theorem decode_base32_256_cons (c : Char) (rest : List Char) (v : Nat)
    (hlen : (c :: rest).length = 52) (hcv : base32_char_value c = some v) :
    decode_base32_256 (c :: rest) = decLoopTail rest (v % 2) 1 0 := by
  simp [decode_base32_256, hlen, hcv]

/-- The payload codec round-trips: decoding the 52 characters encoded
from any 32 bytes recovers those bytes. -/
theorem decode_encode_base32_256 (bytes : List Nat) (hlen : bytes.length = 32)
    (hb : ∀ b ∈ bytes, b < 256) :
    decode_base32_256 (encode_base32_256 bytes) = some bytes := by
  cases bytes with
  | nil => simp at hlen
  | cons b0 rest =>
    have hrl : rest.length = 31 := by simpa using hlen
    have hb0 : b0 < 256 := hb b0 (List.mem_cons_self ..)
    have hbr : ∀ b ∈ rest, b < 256 := fun x hx => hb x (List.mem_cons_of_mem _ hx)
    have hN : beNum (b0 :: rest) < 2 ^ 256 := by
      have := beNum_lt (b0 :: rest) hb
      rw [hlen] at this
      exact this
    have hd0 : beNum (b0 :: rest) / 2 ^ 255 < 2 := by
      rw [Nat.div_lt_iff_lt_mul (Nat.pos_pow_of_pos _ (by omega))]
      calc beNum (b0 :: rest) < 2 ^ 256 := hN
        _ = 2 * 2 ^ 255 := by rw [← Nat.pow_succ']
    have hdig := encode_digits_spec b0 rest hrl hb0 hbr
    unfold encode_base32_256
    rw [hdig]
    have hchunk_lt := msbChunks_lt (beNum (b0 :: rest)) 51
    have hlen52 : (((beNum (b0 :: rest) / 2 ^ 255) :: msbChunks (beNum (b0 :: rest)) 51).map
        base32Char).length = 52 := by
      simp [msbChunks_length]
    rw [List.map_cons,
      decode_base32_256_cons _ _ (beNum (b0 :: rest) / 2 ^ 255)
        (by simpa using hlen52)
        (base32_char_value_base32Char (beNum (b0 :: rest) / 2 ^ 255) (by omega))]
    rw [decLoopTail_spec (List.map base32Char (msbChunks (beNum (b0 :: rest)) 51))
      (msbChunks (beNum (b0 :: rest)) 51) (beNum (b0 :: rest) / 2 ^ 255 % 2) 1 0
      (map_char_value_map_base32Char _ hchunk_lt) hchunk_lt (by omega)
      (by have := Nat.mod_lt (beNum (b0 :: rest) / 2 ^ 255) (show 0 < 2 by omega); omega)
      (by rw [msbChunks_length]) (by rw [msbChunks_length])]
    rw [msbChunks_length, b32Num_msbChunks]
    have hx : beNum (b0 :: rest) / 2 ^ 255 % 2 * 2 ^ (5 * 51)
          + beNum (b0 :: rest) % 2 ^ (5 * 51)
        = beNum (b0 :: rest) := by
      rw [Nat.mod_eq_of_lt hd0, show 5 * 51 = 255 by norm_num]
      calc beNum (b0 :: rest) / 2 ^ 255 * 2 ^ 255 + beNum (b0 :: rest) % 2 ^ 255
          = 2 ^ 255 * (beNum (b0 :: rest) / 2 ^ 255) + beNum (b0 :: rest) % 2 ^ 255 := by ring
        _ = beNum (b0 :: rest) := Nat.div_add_mod _ _
    rw [hx, show (1 + 5 * 51) / 8 = 32 by norm_num]
    rw [show (32 : Nat) = (b0 :: rest).length from hlen.symm, beBytes_beNum _ hb]

/-- Decoding eight alphabet characters of known digit values. -/
theorem decode_base32_40_chars (v0 v1 v2 v3 v4 v5 v6 v7 : Nat)
    (h0 : v0 < 32) (h1 : v1 < 32) (h2 : v2 < 32) (h3 : v3 < 32)
    (h4 : v4 < 32) (h5 : v5 < 32) (h6 : v6 < 32) (h7 : v7 < 32) :
    decode_base32_40 [base32Char v0, base32Char v1, base32Char v2, base32Char v3,
        base32Char v4, base32Char v5, base32Char v6, base32Char v7]
      = some [(((((((v0 * 2 ^ 5 + v1) * 2 ^ 5 + v2) * 2 ^ 5 + v3) * 2 ^ 5 + v4)
            * 2 ^ 5 + v5) * 2 ^ 5 + v6) * 2 ^ 5 + v7) / 2 ^ 32 % 256,
          (((((((v0 * 2 ^ 5 + v1) * 2 ^ 5 + v2) * 2 ^ 5 + v3) * 2 ^ 5 + v4)
            * 2 ^ 5 + v5) * 2 ^ 5 + v6) * 2 ^ 5 + v7) / 2 ^ 24 % 256,
          (((((((v0 * 2 ^ 5 + v1) * 2 ^ 5 + v2) * 2 ^ 5 + v3) * 2 ^ 5 + v4)
            * 2 ^ 5 + v5) * 2 ^ 5 + v6) * 2 ^ 5 + v7) / 2 ^ 16 % 256,
          (((((((v0 * 2 ^ 5 + v1) * 2 ^ 5 + v2) * 2 ^ 5 + v3) * 2 ^ 5 + v4)
            * 2 ^ 5 + v5) * 2 ^ 5 + v6) * 2 ^ 5 + v7) / 2 ^ 8 % 256,
          (((((((v0 * 2 ^ 5 + v1) * 2 ^ 5 + v2) * 2 ^ 5 + v3) * 2 ^ 5 + v4)
            * 2 ^ 5 + v5) * 2 ^ 5 + v6) * 2 ^ 5 + v7) % 256] := by
  simp only [decode_base32_40, base32_char_value_base32Char v0 h0,
    base32_char_value_base32Char v1 h1, base32_char_value_base32Char v2 h2,
    base32_char_value_base32Char v3 h3, base32_char_value_base32Char v4 h4,
    base32_char_value_base32Char v5 h5, base32_char_value_base32Char v6 h6,
    base32_char_value_base32Char v7 h7]

/-- The checksum codec round-trips: decoding the 8 characters encoded
from any 5 bytes recovers those bytes. -/
theorem decode_encode_base32_40 (b0 b1 b2 b3 b4 : Nat)
    (h0 : b0 < 256) (h1 : b1 < 256) (h2 : b2 < 256) (h3 : b3 < 256) (h4 : b4 < 256) :
    decode_base32_40 (encode_base32_40 [b0, b1, b2, b3, b4]) = some [b0, b1, b2, b3, b4] := by
  have key : ∀ C : Nat, C < 2 ^ 40 →
      decode_base32_40 [base32Char (C / 2 ^ 35 % 32), base32Char (C / 2 ^ 30 % 32),
          base32Char (C / 2 ^ 25 % 32), base32Char (C / 2 ^ 20 % 32),
          base32Char (C / 2 ^ 15 % 32), base32Char (C / 2 ^ 10 % 32),
          base32Char (C / 2 ^ 5 % 32), base32Char (C % 32)]
        = some [C / 2 ^ 32 % 256, C / 2 ^ 24 % 256, C / 2 ^ 16 % 256,
            C / 2 ^ 8 % 256, C % 256] := by
    intro C hC
    rw [decode_base32_40_chars _ _ _ _ _ _ _ _
      (Nat.mod_lt _ (by norm_num)) (Nat.mod_lt _ (by norm_num)) (Nat.mod_lt _ (by norm_num))
      (Nat.mod_lt _ (by norm_num)) (Nat.mod_lt _ (by norm_num)) (Nat.mod_lt _ (by norm_num))
      (Nat.mod_lt _ (by norm_num)) (Nat.mod_lt _ (by norm_num))]
    congr 1
    simp only [List.cons.injEq, and_true]
    refine ⟨?_, ?_, ?_, ?_, ?_⟩ <;> omega
  show decode_base32_40
      [base32Char ((b0 * 2 ^ 32 + b1 * 2 ^ 24 + b2 * 2 ^ 16 + b3 * 2 ^ 8 + b4) / 2 ^ 35 % 32),
       base32Char ((b0 * 2 ^ 32 + b1 * 2 ^ 24 + b2 * 2 ^ 16 + b3 * 2 ^ 8 + b4) / 2 ^ 30 % 32),
       base32Char ((b0 * 2 ^ 32 + b1 * 2 ^ 24 + b2 * 2 ^ 16 + b3 * 2 ^ 8 + b4) / 2 ^ 25 % 32),
       base32Char ((b0 * 2 ^ 32 + b1 * 2 ^ 24 + b2 * 2 ^ 16 + b3 * 2 ^ 8 + b4) / 2 ^ 20 % 32),
       base32Char ((b0 * 2 ^ 32 + b1 * 2 ^ 24 + b2 * 2 ^ 16 + b3 * 2 ^ 8 + b4) / 2 ^ 15 % 32),
       base32Char ((b0 * 2 ^ 32 + b1 * 2 ^ 24 + b2 * 2 ^ 16 + b3 * 2 ^ 8 + b4) / 2 ^ 10 % 32),
       base32Char ((b0 * 2 ^ 32 + b1 * 2 ^ 24 + b2 * 2 ^ 16 + b3 * 2 ^ 8 + b4) / 2 ^ 5 % 32),
       base32Char ((b0 * 2 ^ 32 + b1 * 2 ^ 24 + b2 * 2 ^ 16 + b3 * 2 ^ 8 + b4) % 32)] = _
  rw [key (b0 * 2 ^ 32 + b1 * 2 ^ 24 + b2 * 2 ^ 16 + b3 * 2 ^ 8 + b4) (by omega)]
  congr 1
  simp only [List.cons.injEq, and_true]
  refine ⟨?_, ?_, ?_, ?_, ?_⟩ <;> omega

/-! ### Blake2b output shape -/

theorem blakeCompress_length (h m : List Nat) (t : Nat) (last : Bool) :
    (blakeCompress h m t last).length = 8 := by
  simp [blakeCompress]

theorem blakeLoop_length (fuel : Nat) : ∀ (h : List Nat) (t : Nat) (d : List Nat),
    (blakeLoop fuel h t d).length = 8 := by
  induction fuel with
  | zero => intro h t d; exact blakeCompress_length ..
  | succ fuel ih =>
    intro h t d
    unfold blakeLoop
    by_cases hc : d.length ≤ 128
    · rw [if_pos hc]; exact blakeCompress_length ..
    · rw [if_neg hc]; exact ih ..

theorem foldr_wordLEBytes_length (l : List Nat) :
    (l.foldr (fun w acc => wordLEBytes w ++ acc) []).length = 8 * l.length := by
  induction l with
  | nil => rfl
  | cons w ws ih =>
    rw [List.foldr_cons, List.length_append, ih, List.length_cons]
    show (wordLEBytes w).length + 8 * ws.length = 8 * (ws.length + 1)
    rw [show (wordLEBytes w).length = 8 from rfl]
    ring

theorem blake2b_length (nn : Nat) (d : List Nat) (hnn : nn ≤ 64) :
    (blake2b nn d).length = nn := by
  unfold blake2b
  rw [List.length_take, foldr_wordLEBytes_length, blakeLoop_length]
  omega

theorem foldr_wordLEBytes_lt (l : List Nat) :
    ∀ b ∈ l.foldr (fun w acc => wordLEBytes w ++ acc) [], b < 256 := by
  induction l with
  | nil => intro b hb; cases hb
  | cons w ws ih =>
    intro b hb
    rw [List.foldr_cons] at hb
    rcases List.mem_append.mp hb with h | h
    · simp only [wordLEBytes, List.mem_cons, List.not_mem_nil, or_false] at h
      rcases h with rfl | rfl | rfl | rfl | rfl | rfl | rfl | rfl <;>
        exact Nat.mod_lt _ (by omega)
    · exact ih b h

theorem blake2b_lt (nn : Nat) (d : List Nat) : ∀ b ∈ blake2b nn d, b < 256 := by
  intro b hb
  unfold blake2b at hb
  exact foldr_wordLEBytes_lt _ b (List.mem_of_mem_take hb)

/-! ### The account codec round-trip -/

theorem list_eq_five (l : List Nat) (h : l.length = 5) :
    ∃ a b c d e, l = [a, b, c, d, e] := by
  cases l with
  | nil => simp at h
  | cons a l1 =>
  cases l1 with
  | nil => simp at h
  | cons b l2 =>
  cases l2 with
  | nil => simp at h
  | cons c l3 =>
  cases l3 with
  | nil => simp at h
  | cons d l4 =>
  cases l4 with
  | nil => simp at h
  | cons e l5 =>
  cases l5 with
  | cons f l6 => simp at h
  | nil => exact ⟨a, b, c, d, e, rfl⟩

theorem encode_base32_256_length (bytes : List Nat) (hlen : bytes.length = 32)
    (hb : ∀ b ∈ bytes, b < 256) : (encode_base32_256 bytes).length = 52 := by
  cases bytes with
  | nil => simp at hlen
  | cons b0 rest =>
    have hrl : rest.length = 31 := by simpa using hlen
    unfold encode_base32_256
    rw [encode_digits_spec b0 rest hrl (hb b0 (List.mem_cons_self ..))
      (fun x hx => hb x (List.mem_cons_of_mem _ hx))]
    simp [msbChunks_length]

theorem stripPrefix_append (p s : List Char) : stripPrefix p (p ++ s) = some s := by
  unfold stripPrefix
  rw [if_pos (List.isPrefixOf_iff_prefix.mpr (List.prefix_append p s)), List.drop_left]

theorem decode_account_nano (data : List Char) :
    decode_account (ACCOUNT_PREFIX_NANO ++ data) = decode_account_data data := by
  simp only [decode_account, stripPrefix_append]

theorem stripPrefix_nano_xno (data : List Char) :
    stripPrefix ACCOUNT_PREFIX_NANO (ACCOUNT_PREFIX_XNO ++ data) = none := by
  unfold stripPrefix
  rw [if_neg]
  intro hpre
  have := List.isPrefixOf_iff_prefix.mp hpre
  rcases this with ⟨t, ht⟩
  simp [ACCOUNT_PREFIX_NANO, ACCOUNT_PREFIX_XNO] at ht

theorem decode_account_xno (data : List Char) :
    decode_account (ACCOUNT_PREFIX_XNO ++ data) = decode_account_data data := by
  simp only [decode_account, stripPrefix_nano_xno, stripPrefix_append]

/-- Decoding the canonical encoding recovers the public key: the heart
of the address round-trip. -/
theorem decode_encode_account (pk : List Nat) (hlen : pk.length = 32)
    (hb : ∀ b ∈ pk, b < 256) :
    decode_account (encode_account pk) = .ok pk := by
  have hcl : ((blake2b 5 pk).reverse).length = 5 := by
    simpa using blake2b_length 5 pk (by omega)
  obtain ⟨a, b, c, d, e, hcs⟩ := list_eq_five _ hcl
  have hcsb : ∀ x ∈ (blake2b 5 pk).reverse, x < 256 := fun x hx =>
    blake2b_lt 5 pk x (List.mem_reverse.mp hx)
  have ha : a < 256 := by apply hcsb; rw [hcs]; simp
  have hbb : b < 256 := by apply hcsb; rw [hcs]; simp
  have hc : c < 256 := by apply hcsb; rw [hcs]; simp
  have hd : d < 256 := by apply hcsb; rw [hcs]; simp
  have he : e < 256 := by apply hcsb; rw [hcs]; simp
  have hplen : (encode_base32_256 pk).length = 52 := encode_base32_256_length pk hlen hb
  have hcslen : (encode_base32_40 ((blake2b 5 pk).reverse)).length = 8 := by
    rw [hcs]
    rfl
  show decode_account (ACCOUNT_PREFIX_NANO
      ++ encode_base32_256 pk ++ encode_base32_40 ((blake2b 5 pk).reverse)) = _
  rw [List.append_assoc, decode_account_nano]
  unfold decode_account_data
  rw [if_neg (by rw [List.length_append, hplen, hcslen]; omega)]
  rw [List.take_left' hplen, List.drop_left' hplen]
  rw [decode_encode_base32_256 pk hlen hb]
  rw [hcs, decode_encode_base32_40 a b c d e ha hbb hc hd he, ← hcs]
  show (if (blake2b 5 pk).reverse.reverse = blake2b 5 pk then Except.ok pk
      else Except.error AccountError.ChecksumMismatch) = Except.ok pk
  rw [List.reverse_reverse, if_pos rfl]

/-! ### Decoder soundness (inversion) -/

/-- A successful decode loop produced exactly `32 - byteIdx` bytes, all
below 256. -/
theorem decLoopTail_out : ∀ (cs : List Char) (bits bc bi : Nat) (out : List Nat),
    decLoopTail cs bits bc bi = some out → out.length + bi = 32 ∧ ∀ b ∈ out, b < 256 := by
  intro cs
  induction cs with
  | nil =>
    intro bits bc bi out h
    unfold decLoopTail at h
    by_cases hbi : bi = 32
    · rw [if_pos hbi] at h
      cases h
      subst hbi
      exact ⟨by simp, fun b hb => by cases hb⟩
    · rw [if_neg hbi] at h
      cases h
  | cons c ct ih =>
    intro bits bc bi out h
    cases hcv : base32_char_value c with
    | none =>
      unfold decLoopTail at h
      rw [hcv] at h
      simp at h
    | some v =>
      rw [decLoopTail_cons c ct bits bc bi v hcv] at h
      by_cases hcond : 8 ≤ bc + 5 ∧ bi < 32
      · rw [if_pos hcond] at h
        cases hrec : decLoopTail ct ((bits * 2 ^ 5 + v) % 2 ^ (bc + 5 - 8)) (bc + 5 - 8)
            (bi + 1) with
        | none => rw [hrec] at h; simp at h
        | some out2 =>
          rw [hrec, Option.map_some'] at h
          obtain ⟨h1, h2⟩ := ih _ _ _ _ hrec
          cases h
          refine ⟨by simp only [List.length_cons]; omega, ?_⟩
          intro x hx
          rcases List.mem_cons.mp hx with rfl | hx2
          · exact Nat.mod_lt _ (by omega)
          · exact h2 x hx2
      · rw [if_neg hcond] at h
        exact ih _ _ _ _ h

/-- `decode_base32_256` on a list whose first character is invalid. -/
theorem decode_base32_256_cons_none (c : Char) (rest : List Char)
    (hcv : base32_char_value c = none) :
    decode_base32_256 (c :: rest) = none := by
  unfold decode_base32_256
  by_cases hl : (c :: rest).length = 52
  · rw [if_pos hl]
    show (match base32_char_value c with
      | none => none
      | some value => decLoopTail rest (value % 2) 1 0) = none
    rw [hcv]
  · rw [if_neg hl]

/-- A successful payload decode yields 32 bytes below 256. -/
theorem decode_base32_256_ok (p : List Char) (pk : List Nat)
    (h : decode_base32_256 p = some pk) : pk.length = 32 ∧ ∀ b ∈ pk, b < 256 := by
  cases p with
  | nil =>
    unfold decode_base32_256 at h
    simp at h
  | cons c rest =>
    by_cases hl : (c :: rest).length = 52
    · cases hcv : base32_char_value c with
      | none => rw [decode_base32_256_cons_none c rest hcv] at h; cases h
      | some v =>
        rw [decode_base32_256_cons c rest v hl hcv] at h
        have := decLoopTail_out rest (v % 2) 1 0 pk h
        exact ⟨by omega, this.2⟩
    · unfold decode_base32_256 at h
      rw [if_neg hl] at h
      cases h

/-- Inversion of `decode_account_data`: a success means the data was 60
characters whose payload decoded to `pk` and whose checksum matched. -/
theorem decode_account_data_ok (data : List Char) (pk : List Nat)
    (h : decode_account_data data = .ok pk) :
    data.length = 60 ∧ decode_base32_256 (data.take 52) = some pk ∧
      ∃ cs, decode_base32_40 (data.drop 52) = some cs ∧ cs.reverse = blake2b 5 pk := by
  unfold decode_account_data at h
  by_cases hl : data.length ≠ 60
  · rw [if_pos hl] at h
    cases h
  · rw [if_neg hl] at h
    cases hp : decode_base32_256 (data.take 52) with
    | none => rw [hp] at h; simp at h
    | some pk0 =>
      rw [hp] at h
      cases hq : decode_base32_40 (data.drop 52) with
      | none => rw [hq] at h; simp at h
      | some cs =>
        rw [hq] at h
        dsimp only at h
        by_cases hck : cs.reverse = blake2b 5 pk0
        · rw [if_pos hck] at h
          cases h
          exact ⟨by omega, rfl, cs, rfl, hck⟩
        · rw [if_neg hck] at h
          cases h

/-- Inversion of `decode_account` down to `decode_account_data`. -/
theorem decode_account_ok (s : List Char) (pk : List Nat)
    (h : decode_account s = .ok pk) :
    ∃ pre data, (pre = ACCOUNT_PREFIX_NANO ∨ pre = ACCOUNT_PREFIX_XNO) ∧
      s = pre ++ data ∧ decode_account_data data = .ok pk := by
  unfold decode_account at h
  cases hn : stripPrefix ACCOUNT_PREFIX_NANO s with
  | some data =>
    rw [hn] at h
    refine ⟨ACCOUNT_PREFIX_NANO, data, Or.inl rfl, ?_, h⟩
    unfold stripPrefix at hn
    by_cases hpre : ACCOUNT_PREFIX_NANO.isPrefixOf s
    · rw [if_pos hpre] at hn
      cases hn
      rcases List.isPrefixOf_iff_prefix.mp hpre with ⟨t, ht⟩
      rw [← ht, List.drop_left]
    · rw [if_neg hpre] at hn
      cases hn
  | none =>
    rw [hn] at h
    cases hx : stripPrefix ACCOUNT_PREFIX_XNO s with
    | some data =>
      rw [hx] at h
      refine ⟨ACCOUNT_PREFIX_XNO, data, Or.inr rfl, ?_, h⟩
      unfold stripPrefix at hx
      by_cases hpre : ACCOUNT_PREFIX_XNO.isPrefixOf s
      · rw [if_pos hpre] at hx
        cases hx
        rcases List.isPrefixOf_iff_prefix.mp hpre with ⟨t, ht⟩
        rw [← ht, List.drop_left]
      · rw [if_neg hpre] at hx
        cases hx
    | none =>
      rw [hx] at h
      cases h

/-- A decoded public key is 32 bytes below 256 — so it re-encodes and
re-decodes to itself. -/
theorem decode_account_pk_shape (s : List Char) (pk : List Nat)
    (h : decode_account s = .ok pk) : pk.length = 32 ∧ ∀ b ∈ pk, b < 256 := by
  obtain ⟨pre, data, _, _, hdata⟩ := decode_account_ok s pk h
  obtain ⟨_, hp, _⟩ := decode_account_data_ok data pk hdata
  exact decode_base32_256_ok _ _ hp

/-! ## Claim C1: address codec round-trip -/

/-- The documented test public key
`E89208DD038FBB269987689621D52292AE9C35941A7484756ECCED92A65093BA`. -/
def testPk : List Nat :=
  [0xE8, 0x92, 0x08, 0xDD, 0x03, 0x8F, 0xBB, 0x26, 0x99, 0x87, 0x68, 0x96, 0x21, 0xD5,
   0x22, 0x92, 0xAE, 0x9C, 0x35, 0x94, 0x1A, 0x74, 0x84, 0x75, 0x6E, 0xCC, 0xED, 0x92,
   0xA6, 0x50, 0x93, 0xBA]

/-- The canonical address of `testPk`. -/
def testAddrNano : List Char :=
  "nano_3t6k35gi95xu6tergt6p69ck76ogmitsa8mnijtpxm9fkcm736xtoncuohr3".data

/-- The same address under the alternative `xno_` prefix. -/
def testAddrXno : List Char :=
  "xno_3t6k35gi95xu6tergt6p69ck76ogmitsa8mnijtpxm9fkcm736xtoncuohr3".data

set_option maxRecDepth 100000 in
set_option maxHeartbeats 4000000 in
/-- C1 (counterexample): the claim's second half fails as stated — the
`xno_`-prefixed form of the documented test address is accepted by
`decode_account`, yet re-encoding the decoded key yields the `nano_`
form, not the original string. -/
theorem C1_addr_roundtrip_cx :
    decode_account testAddrXno = .ok testPk ∧ encode_account testPk ≠ testAddrXno := by
  constructor
  · decide
  · decide

/-- C1 (amended): for every 32-byte public key `k`,
`decode_account (encode_account k) = ok k`, where `encode_account`
always emits the lowercase `nano_` form; and for every address string
`s` that `decode_account` accepts (it accepts both the `nano_` and
`xno_` prefixes and both letter cases), re-encoding the decoded public
key yields the canonical lowercase `nano_` address of the same key —
which again decodes to that key — rather than necessarily the string
`s` itself. -/
theorem C1_addr_roundtrip :
    (∀ pk : List Nat, pk.length = 32 → (∀ b ∈ pk, b < 256) →
      decode_account (encode_account pk) = .ok pk) ∧
    (∀ (s : List Char) (pk : List Nat), decode_account s = .ok pk →
      decode_account (encode_account pk) = .ok pk) := by
  constructor
  · intro pk hlen hb
    exact decode_encode_account pk hlen hb
  · intro s pk h
    obtain ⟨hlen, hb⟩ := decode_account_pk_shape s pk h
    exact decode_encode_account pk hlen hb

set_option maxRecDepth 100000 in
set_option maxHeartbeats 4000000 in
/-- C1 witness: the amended round-trip at the documented test vector,
through the accepted-string direction at the `xno_` form. -/
theorem C1_addr_roundtrip_witness :
    decode_account (encode_account testPk) = .ok testPk :=
  C1_addr_roundtrip.2 testAddrXno testPk (by decide)

/-! ## Proof of work (`src/lib.rs`, `src/work/validate.rs`, `src/work/cpu.rs`) -/

/-- `constants::WORK_THRESHOLD_SEND` (mainnet send/change/epoch). -/
def WORK_THRESHOLD_SEND : Nat := 0xfffffff800000000

/-- `constants::WORK_THRESHOLD_RECEIVE` (mainnet receive/open). -/
def WORK_THRESHOLD_RECEIVE : Nat := 0xfffffe0000000000

/-- `Subtype` (`src/types/block.rs`): the closed set of state-block
subtypes. -/
inductive Subtype
  | Send
  | Receive
  | Open
  | Change
  | Epoch
deriving DecidableEq, Repr

/-- `WorkThreshold` (`src/work/validate.rs`). -/
structure WorkThreshold where
  send : Nat
  receive : Nat
deriving DecidableEq, Repr

/-- `WorkThreshold::MAINNET`. -/
def WorkThreshold.MAINNET : WorkThreshold :=
  { send := WORK_THRESHOLD_SEND, receive := WORK_THRESHOLD_RECEIVE }

/-- `WorkThreshold::for_subtype`. -/
def WorkThreshold.for_subtype (t : WorkThreshold) (s : Subtype) : Nat :=
  match s with
  | .Send | .Change | .Epoch => t.send
  | .Receive | .Open => t.receive

/-- `WorkValidator::difficulty`: the 8-byte Blake2b digest of the
little-endian work bytes followed by the 32 root bytes, interpreted as
a little-endian u64. -/
def difficulty (work : Nat) (hash : List Nat) : Nat :=
  leNum (blake2b 8 (leBytes 8 work ++ hash))

/-- `WorkValidator::validate`: the work meets the threshold. -/
def validate (work : Nat) (hash : List Nat) (threshold : Nat) : Bool :=
  decide (threshold ≤ difficulty work hash)

/-- `CpuWorkGenerator::generate`, per-worker scan `for nonce in
start..end`: the first satisfying nonce, `none` when the range is
exhausted or the cancel flag (modelled as a constant Boolean, polled
when `nonce & 0xFFF == 0`) stops the worker.  The second numeric
argument is the remaining range length `end - start`. -/
def scanRange (hash : List Nat) (threshold : Nat) (cancelled : Bool) :
    Nat → Nat → Option Nat
  | _, 0 => none
  | start, fuel + 1 =>
    if start % 4096 = 0 ∧ cancelled then none
    else if validate start hash threshold then some start
    else scanRange hash threshold cancelled (start + 1) fuel

/-- `CpuWorkGenerator::generate`: `chunk_size = u64::MAX / num_threads`. -/
def chunk_size (num_threads : Nat) : Nat := (2 ^ 64 - 1) / num_threads

/-- The bounds `[start, end)` scanned by worker `i` in
`CpuWorkGenerator::generate`. -/
def workerRange (num_threads i : Nat) : Nat × Nat :=
  let start := i * chunk_size num_threads
  (start, if i = num_threads - 1 then 2 ^ 64 - 1 else start + chunk_size num_threads)

/-- `CpuWorkGenerator::generate` at worker count `num_threads`: the
parallel `find_map_any` is modelled as the first worker (in index
order) whose scan finds a nonce; the shared found-flag only makes
losing workers return `none` and cannot affect which values are
possible. -/
def generate (num_threads : Nat) (hash : List Nat) (threshold : Nat)
    (cancelled : Bool) : Option Nat :=
  (List.range num_threads).findSome? (fun i =>
    scanRange hash threshold cancelled (workerRange num_threads i).1
      ((workerRange num_threads i).2 - (workerRange num_threads i).1))

/-- A nonce lies in the range scanned by worker `i`. -/
def scannedBy (num_threads i nonce : Nat) : Prop :=
  (workerRange num_threads i).1 ≤ nonce ∧ nonce < (workerRange num_threads i).2

instance (num_threads i nonce : Nat) : Decidable (scannedBy num_threads i nonce) := by
  unfold scannedBy
  infer_instance

/-- Any nonce the scan returns satisfied the validator. -/
theorem scanRange_valid (hash : List Nat) (threshold : Nat) (cancelled : Bool) :
    ∀ (fuel start w : Nat), scanRange hash threshold cancelled start fuel = some w →
      validate w hash threshold = true := by
  intro fuel
  induction fuel with
  | zero => intro start w h; cases h
  | succ fuel ih =>
    intro start w h
    unfold scanRange at h
    by_cases hcanc : start % 4096 = 0 ∧ cancelled
    · rw [if_pos hcanc] at h
      cases h
    · rw [if_neg hcanc] at h
      by_cases hv : validate start hash threshold
      · rw [if_pos hv] at h
        cases h
        exact hv
      · rw [if_neg hv] at h
        exact ih (start + 1) w h

/-! ## Claim C4: PoW validity -/

/-- C4: whenever `CpuWorkGenerator::generate` returns `Ok(work)`, the
returned work satisfies `difficulty(work, hash) ≥ threshold`, for any
worker count, cancel-flag state and root hash; `difficulty` is the
8-byte Blake2b digest of the 8 little-endian work bytes followed by
the 32 root bytes, read as a little-endian u64. -/
theorem C4_pow_validity (num_threads : Nat) (hash : List Nat) (threshold : Nat)
    (cancelled : Bool) (w : Nat)
    (h : generate num_threads hash threshold cancelled = some w) :
    threshold ≤ difficulty w hash := by
  obtain ⟨i, _, hscan⟩ := List.exists_of_findSome?_eq_some h
  have := scanRange_valid hash threshold cancelled _ _ _ hscan
  unfold validate at this
  exact of_decide_eq_true this

set_option maxRecDepth 100000 in
set_option maxHeartbeats 1000000 in
/-- C4 witness: with one worker, threshold 0 and no cancellation, the
generator returns nonce 0, whose difficulty trivially meets the
threshold. -/
theorem C4_pow_validity_witness :
    0 ≤ difficulty 0 (List.replicate 32 0) :=
  C4_pow_validity 1 (List.replicate 32 0) 0 false 0 (by decide)

/-! ## Claim C7: PoW search partitioning -/

/-- C7 (counterexample): with two workers the chunk size is
`⌊(2^64 − 1) / 2⌋ = 2^63 − 1`, not `⌊2^64 / 2⌋ = 2^63`, and the nonce
`2^64 − 1` lies in no worker's scanned range (the last range is
end-exclusive at `u64::MAX`). -/
theorem C7_partition_cx :
    chunk_size 2 ≠ 2 ^ 64 / 2 ∧ (∀ i, i < 2 → ¬ scannedBy 2 i (2 ^ 64 - 1)) := by
  constructor
  · decide
  · decide

/-- C7 (amended): for every worker count `W ≥ 1`, `generate` divides
the nonce space into `W` contiguous ranges of `⌊(2^64 − 1) / W⌋` each
(worker `i` starting at `i · ⌊(2^64 − 1) / W⌋`), with the last range
extending to `2^64 − 2` inclusive (its exclusive bound is `u64::MAX`),
so that every 64-bit nonce except `2^64 − 1` lies in some worker's
scanned range. -/
theorem C7_partition (W : Nat) (hW : 1 ≤ W) :
    (∀ i, (workerRange W i).1 = i * ((2 ^ 64 - 1) / W)) ∧
    (∀ i, i + 1 < W → (workerRange W i).2 = (i + 1) * ((2 ^ 64 - 1) / W)) ∧
    (workerRange W (W - 1)).2 = 2 ^ 64 - 1 ∧
    (∀ n, n < 2 ^ 64 - 1 → ∃ i, i < W ∧ scannedBy W i n) := by
  refine ⟨fun i => rfl, fun i hi => ?_, ?_, ?_⟩
  · show (if i = W - 1 then 2 ^ 64 - 1 else i * chunk_size W + chunk_size W) = _
    rw [if_neg (by omega)]
    unfold chunk_size
    ring
  · show (if W - 1 = W - 1 then 2 ^ 64 - 1 else _) = 2 ^ 64 - 1
    rw [if_pos rfl]
  · intro n hn
    by_cases hc : chunk_size W = 0
    · refine ⟨W - 1, by omega, ?_, ?_⟩
      · show (W - 1) * chunk_size W ≤ n
        rw [hc]
        omega
      · show n < (if W - 1 = W - 1 then 2 ^ 64 - 1 else _)
        rw [if_pos rfl]
        exact hn
    · have hcpos : 0 < chunk_size W := by omega
      by_cases hi : n / chunk_size W < W - 1
      · refine ⟨n / chunk_size W, by omega, ?_, ?_⟩
        · exact Nat.div_mul_le_self n (chunk_size W)
        · show n < (if n / chunk_size W = W - 1 then 2 ^ 64 - 1
            else n / chunk_size W * chunk_size W + chunk_size W)
          rw [if_neg (by omega)]
          have hdm := Nat.div_add_mod n (chunk_size W)
          have hmlt : n % chunk_size W < chunk_size W := Nat.mod_lt n hcpos
          have hcomm : chunk_size W * (n / chunk_size W) = n / chunk_size W * chunk_size W :=
            Nat.mul_comm ..
          omega
      · refine ⟨W - 1, by omega, ?_, ?_⟩
        · show (W - 1) * chunk_size W ≤ n
          have h1 : (W - 1) * chunk_size W ≤ n / chunk_size W * chunk_size W :=
            Nat.mul_le_mul_right _ (by omega)
          have h2 : n / chunk_size W * chunk_size W ≤ n :=
            Nat.div_mul_le_self n (chunk_size W)
          omega
        · show n < (if W - 1 = W - 1 then 2 ^ 64 - 1 else _)
          rw [if_pos rfl]
          exact hn

/-- C7 witness: the amended partition at three workers, with coverage
checked for nonce 5. -/
theorem C7_partition_witness :
    (workerRange 3 0).1 = 0 * ((2 ^ 64 - 1) / 3) ∧
    (workerRange 3 2).2 = 2 ^ 64 - 1 ∧ (∃ i, i < 3 ∧ scannedBy 3 i 5) := by
  have h := C7_partition 3 (by omega)
  exact ⟨h.1 0, h.2.2.1, h.2.2.2 5 (by norm_num)⟩

/-! ## Claim C9: mainnet work thresholds -/

/-- C9: the mainnet threshold for Send, Change and Epoch is exactly
`0xFFFFFFF800000000`, the threshold for Receive and Open is exactly
`0xFFFFFE0000000000`, and the send threshold strictly exceeds the
receive threshold. -/
theorem C9_thresholds :
    WorkThreshold.MAINNET.for_subtype .Send = 0xFFFFFFF800000000 ∧
    WorkThreshold.MAINNET.for_subtype .Change = 0xFFFFFFF800000000 ∧
    WorkThreshold.MAINNET.for_subtype .Epoch = 0xFFFFFFF800000000 ∧
    WorkThreshold.MAINNET.for_subtype .Receive = 0xFFFFFE0000000000 ∧
    WorkThreshold.MAINNET.for_subtype .Open = 0xFFFFFE0000000000 ∧
    WORK_THRESHOLD_SEND > WORK_THRESHOLD_RECEIVE := by
  decide

/-! ## Raw amounts (`src/types/amount.rs`) and claim C10 -/

/-- `u128::MAX`, the bound of the `Raw` scalar. -/
def U128_MAX : Nat := 2 ^ 128 - 1

namespace Raw

/-- The `impl Sub for Raw` operator body `Raw(self.0 - other.0)`:
unguarded u128 subtraction; underflow panics (modelled as `none`). -/
def sub (a b : Nat) : Option Nat :=
  if b ≤ a then some (a - b) else none

/-- The `impl Add for Raw` operator body `Raw(self.0 + other.0)`:
unguarded u128 addition; overflow panics (modelled as `none`). -/
def add (a b : Nat) : Option Nat :=
  if a + b ≤ U128_MAX then some (a + b) else none

/-- `Raw::checked_sub`. -/
def checked_sub (a b : Nat) : Option Nat :=
  if b ≤ a then some (a - b) else none

/-- `Raw::checked_add`. -/
def checked_add (a b : Nat) : Option Nat :=
  if a + b ≤ U128_MAX then some (a + b) else none

/-- `Raw::saturating_sub` (u128 saturating subtraction). -/
def saturating_sub (a b : Nat) : Nat := a - b

/-- `Raw::saturating_add` (u128 saturating addition). -/
def saturating_add (a b : Nat) : Nat := min (a + b) U128_MAX

end Raw

/-- C10: the public `Sub` (and `Add`) operators on `Raw` are unguarded
u128 arithmetic — `a - b` yields `Raw(a.as_u128() - b.as_u128())`
whenever `b ≤ a`, but panics (modelled as `none`) on every underflow,
in particular at `Raw::ZERO - Raw::new(1)`; only `checked_sub` /
`saturating_sub` (and their `add` duals) handle the out-of-range case,
`checked_sub` returning `none` and `saturating_sub` clamping to zero. -/
theorem C10_raw_sub_unguarded :
    (∀ a b : Nat, b ≤ a → Raw.sub a b = some (a - b)) ∧
    (∀ a b : Nat, a < b → Raw.sub a b = none) ∧
    Raw.sub 0 1 = none ∧
    (∀ a b : Nat, a ≤ U128_MAX → b ≤ U128_MAX → a + b > U128_MAX → Raw.add a b = none) ∧
    (∀ a b : Nat, b ≤ a → Raw.checked_sub a b = some (a - b)) ∧
    (∀ a b : Nat, a < b → Raw.checked_sub a b = none ∧ Raw.saturating_sub a b = 0) := by
  refine ⟨?_, ?_, ?_, ?_, ?_, ?_⟩
  · intro a b h
    unfold Raw.sub
    rw [if_pos h]
  · intro a b h
    unfold Raw.sub
    rw [if_neg (by omega)]
  · rfl
  · intro a b _ _ h
    unfold Raw.add
    rw [if_neg (by omega)]
  · intro a b h
    unfold Raw.checked_sub
    rw [if_pos h]
  · intro a b h
    constructor
    · unfold Raw.checked_sub
      rw [if_neg (by omega)]
    · unfold Raw.saturating_sub
      omega

/-- C10 witness: the unguarded subtraction at `3 - 1` and the panic
case at `0 - 1`. -/
theorem C10_raw_sub_unguarded_witness :
    Raw.sub 3 1 = some 2 ∧ Raw.sub 0 1 = none ∧ Raw.checked_sub 0 1 = none := by
  refine ⟨?_, C10_raw_sub_unguarded.2.2.1, (C10_raw_sub_unguarded.2.2.2.2.2 0 1 (by omega)).1⟩
  have h := C10_raw_sub_unguarded.1 3 1 (by omega)
  simpa using h

/-! ## Ed25519-Blake2b keys and signatures (`src/keys/keypair.rs`)

The curve arithmetic comes from the external `curve25519-dalek-ng`
crate.  Honest signing and verification only ever touch the prime-order
cyclic subgroup generated by the Ed25519 basepoint, whose order is the
group order `L`; the embedding models dalek's `EdwardsPoint` through
that subgroup: a point is its discrete logarithm (a `Nat` below `L`,
basepoint `G = 1`), point addition adds mod `L`, scalar-point
multiplication multiplies mod `L`, and compression is the injective
32-byte little-endian encoding with decompression its partial inverse.
Scalars follow dalek exactly: `from_bytes_mod_order_wide` reduces 64
bytes mod `L`, `from_canonical_bytes` requires a value below `L`,
`from_bits` keeps the raw low-255-bit value unreduced, and `+` / `*`
reduce mod `L`. -/

/-- The Ed25519 group order `L = 2^252 + 27742…`. -/
def ED25519_L : Nat := 2 ^ 252 + 27742317777372353535851937790883648493

/-- dalek `Scalar::from_bytes_mod_order_wide` (64 bytes, little-endian,
reduced mod `L`). -/
def scalar_from_bytes_mod_order_wide (bs : List Nat) : Nat := leNum bs % ED25519_L

/-- dalek `Scalar::from_canonical_bytes`: succeeds only below `L`. -/
def scalar_from_canonical_bytes (bs : List Nat) : Option Nat :=
  if leNum bs < ED25519_L then some (leNum bs) else none

/-- dalek `Scalar::from_bits`: the low 255 bits, unreduced. -/
def scalar_from_bits (bs : List Nat) : Nat := leNum bs % 2 ^ 255

/-- dalek point compression, on the prime-order subgroup model. -/
def pointCompress (p : Nat) : List Nat := leBytes 32 p

/-- dalek `CompressedEdwardsY::decompress`, on the subgroup model. -/
def pointDecompress (bs : List Nat) : Option Nat :=
  if leNum bs < ED25519_L then some (leNum bs) else none

/-- Multiplication of a dalek scalar (possibly unreduced) by the
basepoint table, in the subgroup model: `s · G = s mod L`. -/
def basepointMul (s : Nat) : Nat := s % ED25519_L

/-- `clamp_scalar`: `bytes[0] &= 248; bytes[31] &= 127;
bytes[31] |= 64` on a 32-byte list. -/
def clamp_scalar (b : List Nat) : List Nat :=
  (b.set 0 (b.getD 0 0 / 8 * 8)).set 31 ((b.getD 31 0) % 64 + 64)

/-- `expand_private_key`: Blake2b-512 of the private key; low 32 bytes
clamped as the scalar, high 32 bytes as the nonce prefix. -/
def expand_private_key (private_key : List Nat) : List Nat × List Nat :=
  let hash := blake2b 64 private_key
  (clamp_scalar (hash.take 32), hash.drop 32)

/-- `KeyPair`: secret bytes, compressed public key, clamped scalar
(unreduced, per `Scalar::from_bits`), and the Blake2b nonce prefix. -/
structure KeyPair where
  secret_key : List Nat
  public_key : List Nat
  scalar : Nat
  hash_prefix : List Nat

/-- `KeyPair::from_private_key`: expand, clamp, and derive
`A = scalar · G` compressed. -/
def KeyPair.from_private_key (private_key : List Nat) : KeyPair :=
  let ex := expand_private_key private_key
  let scalar := scalar_from_bits ex.1
  let public_point := basepointMul scalar
  { secret_key := private_key
    public_key := pointCompress public_point
    scalar := scalar
    hash_prefix := ex.2 }

/-- `KeyPair::account` (`keypair.account()`): the account is the
address of the public key; the model keeps accounts as their 32
public-key bytes. -/
def KeyPair.account (kp : KeyPair) : List Nat := kp.public_key

/-- `KeyPair::sign_message`: Nano's Ed25519 with Blake2b-512 for nonce
derivation and challenge hashing. -/
def KeyPair.sign_message (kp : KeyPair) (message : List Nat) : List Nat :=
  let r_hash := blake2b 64 (kp.hash_prefix ++ message)
  let r := scalar_from_bytes_mod_order_wide r_hash
  let big_r := basepointMul r
  let big_r_bytes := pointCompress big_r
  let k_hash := blake2b 64 (big_r_bytes ++ kp.public_key ++ message)
  let k := scalar_from_bytes_mod_order_wide k_hash
  let s := (r + k * kp.scalar % ED25519_L) % ED25519_L
  big_r_bytes ++ leBytes 32 s

/-- `KeyPair::verify_message_with_public_key`: parse `R` (reject
non-decompressable), require a canonical `s < L`, parse `A`, recompute
the Blake2b-512 challenge, and accept iff `s · G = R + k · A`. -/
def KeyPair.verify_message_with_public_key (public_key : List Nat) (message : List Nat)
    (signature : List Nat) : Bool :=
  let r_bytes := signature.take 32
  match pointDecompress r_bytes with
  | none => false
  | some r_point =>
    match scalar_from_canonical_bytes (signature.drop 32) with
    | none => false
    | some s =>
      match pointDecompress public_key with
      | none => false
      | some a_point =>
        let k_hash := blake2b 64 (r_bytes ++ public_key ++ message)
        let k := scalar_from_bytes_mod_order_wide k_hash
        let lhs := basepointMul s
        let rhs := (r_point + k * a_point % ED25519_L) % ED25519_L
        decide (lhs = rhs)

theorem leNum_cons (b : Nat) (rest : List Nat) :
    leNum (b :: rest) = b + 256 * leNum rest := rfl

theorem leNum_leBytes (k x : Nat) : leNum (leBytes k x) = x % 2 ^ (8 * k) := by
  induction k generalizing x with
  | zero => simp [leBytes, leNum, Nat.mod_one]
  | succ k ih =>
    rw [leBytes, leNum_cons, ih,
      show 8 * (k + 1) = 8 + 8 * k by ring, Nat.pow_add,
      show (2 : Nat) ^ 8 = 256 by norm_num, Nat.mod_mul]

theorem leBytes_length (k x : Nat) : (leBytes k x).length = k := by
  induction k generalizing x with
  | zero => rfl
  | succ k ih => simp [leBytes, ih]

theorem ED25519_L_pos : 0 < ED25519_L := by
  unfold ED25519_L
  positivity

theorem ED25519_L_lt : ED25519_L < 2 ^ 256 := by
  unfold ED25519_L
  norm_num

/-- Compression round-trips on subgroup points. -/
theorem pointDecompress_pointCompress (p : Nat) (hp : p < ED25519_L) :
    pointDecompress (pointCompress p) = some p := by
  unfold pointDecompress pointCompress
  rw [leNum_leBytes, show (8 * 32 : Nat) = 256 by norm_num,
    Nat.mod_eq_of_lt (lt_trans hp ED25519_L_lt), if_pos hp]

/-- Unfolding of verification once the three parse steps succeed. -/
theorem verify_unfold (pk m sig : List Nat) (R s A : Nat)
    (h1 : pointDecompress (sig.take 32) = some R)
    (h2 : scalar_from_canonical_bytes (sig.drop 32) = some s)
    (h3 : pointDecompress pk = some A) :
    KeyPair.verify_message_with_public_key pk m sig =
      decide (basepointMul s =
        (R + scalar_from_bytes_mod_order_wide (blake2b 64 (sig.take 32 ++ pk ++ m)) * A
          % ED25519_L) % ED25519_L) := by
  simp only [KeyPair.verify_message_with_public_key, h1, h2, h3]

/-- The core verification identity in the subgroup model:
`s · G = R + k · A` for `s = r + k·a (mod L)`, `R = r · G`, `A = a · G`. -/
theorem verify_equation (r k a : Nat) (hr : r < ED25519_L) :
    basepointMul ((r + k * a % ED25519_L) % ED25519_L)
      = (basepointMul r + k * basepointMul a % ED25519_L) % ED25519_L := by
  show ((r + k * a % ED25519_L) % ED25519_L) % ED25519_L
      = (r % ED25519_L + k * (a % ED25519_L) % ED25519_L) % ED25519_L
  rw [Nat.mod_mod_of_dvd _ (dvd_refl _), Nat.mod_eq_of_lt hr,
    Nat.mul_mod k (a % ED25519_L) ED25519_L, Nat.mod_mod_of_dvd a (dvd_refl _),
    ← Nat.mul_mod]

/-! ## Claim C3: sign/verify inverse -/

/-- C3: for every keypair obtained from a 32-byte private key and every
message, verification accepts the produced signature — the honestly
produced `s` is canonical (`< L`) and satisfies the verification
equation `s · G = R + k · A` in the (subgroup model of the) Edwards
group. -/
theorem C3_sign_verify (private_key : List Nat) (hsk : private_key.length = 32)
    (message : List Nat) :
    leNum (((KeyPair.from_private_key private_key).sign_message message).drop 32) < ED25519_L ∧
    KeyPair.verify_message_with_public_key (KeyPair.from_private_key private_key).public_key
      message ((KeyPair.from_private_key private_key).sign_message message) = true := by
  have hLpos := ED25519_L_pos
  have hL256 := ED25519_L_lt
  -- name the signing intermediates
  set kp := KeyPair.from_private_key private_key with hkp
  set r := scalar_from_bytes_mod_order_wide (blake2b 64 (kp.hash_prefix ++ message)) with hr
  set k := scalar_from_bytes_mod_order_wide
    (blake2b 64 (pointCompress (basepointMul r) ++ kp.public_key ++ message)) with hk
  set s := (r + k * kp.scalar % ED25519_L) % ED25519_L with hs
  have hsig : kp.sign_message message = pointCompress (basepointMul r) ++ leBytes 32 s := rfl
  have hrL : r < ED25519_L := Nat.mod_lt _ hLpos
  have hRr : basepointMul r = r := Nat.mod_eq_of_lt hrL
  have hsL : s < ED25519_L := Nat.mod_lt _ hLpos
  have htake : (kp.sign_message message).take 32 = pointCompress (basepointMul r) := by
    rw [hsig]
    exact List.take_left' (leBytes_length 32 _)
  have hdrop : (kp.sign_message message).drop 32 = leBytes 32 s := by
    rw [hsig]
    exact List.drop_left' (leBytes_length 32 _)
  have hsnum : leNum (leBytes 32 s) = s := by
    rw [leNum_leBytes, show (8 * 32 : Nat) = 256 by norm_num,
      Nat.mod_eq_of_lt (lt_trans hsL hL256)]
  constructor
  · rw [hdrop, hsnum]
    exact hsL
  · have h1 : pointDecompress ((kp.sign_message message).take 32) = some (basepointMul r) := by
      rw [htake]
      exact pointDecompress_pointCompress _ (Nat.mod_lt _ hLpos)
    have h2 : scalar_from_canonical_bytes ((kp.sign_message message).drop 32) = some s := by
      rw [hdrop]
      unfold scalar_from_canonical_bytes
      rw [hsnum, if_pos hsL]
    have hpk : kp.public_key = pointCompress (basepointMul (scalar_from_bits
        (clamp_scalar ((blake2b 64 private_key).take 32)))) := rfl
    have hscal : kp.scalar = scalar_from_bits (clamp_scalar ((blake2b 64 private_key).take 32)) :=
      rfl
    have h3 : pointDecompress kp.public_key = some (basepointMul kp.scalar) := by
      rw [hpk]
      exact pointDecompress_pointCompress _ (Nat.mod_lt _ hLpos)
    rw [verify_unfold kp.public_key message (kp.sign_message message)
      (basepointMul r) s (basepointMul kp.scalar) h1 h2 h3]
    rw [decide_eq_true_iff, htake]
    exact verify_equation r k kp.scalar hrL

set_option maxRecDepth 400000 in
set_option maxHeartbeats 4000000 in
/-- C3 witness: sign-then-verify at the zero private key over a 3-byte
message, with a canonical `s`. -/
theorem C3_sign_verify_witness :
    leNum (((KeyPair.from_private_key (List.replicate 32 0)).sign_message
      [1, 2, 3]).drop 32) < ED25519_L ∧
    KeyPair.verify_message_with_public_key
      (KeyPair.from_private_key (List.replicate 32 0)).public_key [1, 2, 3]
      ((KeyPair.from_private_key (List.replicate 32 0)).sign_message [1, 2, 3]) = true :=
  C3_sign_verify (List.replicate 32 0) (by decide) [1, 2, 3]

/-! ## State blocks and hashing (`src/types/block.rs`, `src/blocks/hash.rs`)

Accounts are modelled by their 32 public-key bytes (the Rust `Account`
caches the derived address string alongside; only the key takes part in
hashing and signing). -/

/-- `constants::STATE_BLOCK_PREAMBLE`: 32 bytes, all zero except the
final byte `0x06`. -/
def STATE_BLOCK_PREAMBLE : List Nat := List.replicate 31 0 ++ [6]

/-- `StateBlock` (`src/types/block.rs`). -/
structure StateBlock where
  account : List Nat
  previous : List Nat
  representative : List Nat
  balance : Nat
  link : List Nat
  signature : Option (List Nat)
  work : Option Nat
  subtype : Option Subtype

/-- `StateBlock::new`: the five hashable fields; signature, work and
subtype start empty. -/
def StateBlock.new (account previous representative : List Nat) (balance : Nat)
    (link : List Nat) : StateBlock :=
  { account := account, previous := previous, representative := representative
    balance := balance, link := link, signature := none, work := none, subtype := none }

/-- `BlockHasher::hash_state_block_parts`: Blake2b-256 over the six
updates preamble ‖ account ‖ previous ‖ representative ‖ balance(16,BE)
‖ link (streaming updates concatenate). -/
def BlockHasher.hash_state_block_parts (account previous representative : List Nat)
    (balance : Nat) (link : List Nat) : List Nat :=
  blake2b 32 (STATE_BLOCK_PREAMBLE ++ account ++ previous ++ representative
    ++ beBytes 16 balance ++ link)

/-- `BlockHasher::hash_state_block`. -/
def BlockHasher.hash_state_block (b : StateBlock) : List Nat :=
  BlockHasher.hash_state_block_parts b.account b.previous b.representative b.balance b.link

/-- `BlockSigner::sign` (`src/blocks/sign.rs`): hash the block, then
sign the 32-byte hash. -/
def BlockSigner.sign (block : StateBlock) (keypair : KeyPair) : List Nat :=
  keypair.sign_message (BlockHasher.hash_state_block block)

/-! ## Claim C2: canonical block digest -/

/-- Account public key of
`nano_15ds3yajhbfcnm394ujpq3t1m1axdss3oos3xkc114tf5a5b6o8nmhaenhpe`. -/
def c2Account : List Nat :=
  [13, 121, 15, 145, 23, 165, 170, 164, 194, 113, 110, 54, 184, 116, 9, 129, 29, 94, 114,
   26, 215, 33, 236, 148, 0, 11, 77, 26, 6, 146, 84, 212]

/-- Representative public key of
`nano_1iuz18n4g4wfp9gf7p1s8qkygxw7wx9qfjq6a9aq68uyrdnningdcjontgar`. -/
def c2Rep : List Nat :=
  [67, 127, 1, 168, 39, 11, 141, 177, 220, 210, 216, 25, 53, 229, 231, 119, 133, 231, 79,
   118, 198, 228, 65, 209, 114, 27, 126, 194, 233, 72, 81, 203]

/-- Previous hash `64CE2D56…31EF`. -/
def c2Prev : List Nat :=
  [0x64, 0xCE, 0x2D, 0x56, 0x5D, 0x7E, 0xF4, 0x18, 0xC9, 0x66, 0x12, 0xE7, 0x83, 0x88,
   0x84, 0xCF, 0xB2, 0x79, 0xCC, 0x1C, 0x33, 0x0D, 0x54, 0x0B, 0x0C, 0xA0, 0xC7, 0xDA,
   0x4C, 0xD6, 0x31, 0xEF]

/-- Link `3133E2BA…990E`. -/
def c2Link : List Nat :=
  [0x31, 0x33, 0xE2, 0xBA, 0x03, 0xB9, 0x7E, 0x8F, 0x76, 0x3C, 0x54, 0x72, 0xA3, 0xAB,
   0x3B, 0x2D, 0xE4, 0x91, 0x6B, 0xBF, 0xA8, 0x64, 0x91, 0xB8, 0xEB, 0xD6, 0xFF, 0xCE,
   0xBB, 0x4F, 0x99, 0x0E]

/-- Expected digest `03A4B8F0…5F37`. -/
def c2Hash : List Nat :=
  [0x03, 0xA4, 0xB8, 0xF0, 0x09, 0xF5, 0xF3, 0x68, 0xF7, 0x5E, 0x60, 0x1A, 0x17, 0x32,
   0xA4, 0x81, 0x18, 0x55, 0x6A, 0xE9, 0x52, 0xA8, 0x44, 0x13, 0xA7, 0x2B, 0x91, 0x0A,
   0x82, 0xD1, 0x5F, 0x37]

set_option maxRecDepth 400000 in
set_option maxHeartbeats 4000000 in
/-- C2: the block digest is Blake2b-256 of exactly the 176-byte
concatenation preamble ‖ account ‖ previous ‖ representative ‖
balance(16, big-endian) ‖ link, in that order; subtype, signature and
work never affect the digest; and the documented receive block (with
the stated account, previous, representative, balance 3 raw and link)
hashes to `03A4B8F009F5F368F75E601A1732A48118556AE952A84413A72B910A82D15F37`. -/
theorem C2_block_hash :
    (∀ b : StateBlock,
      BlockHasher.hash_state_block b
        = blake2b 32 (STATE_BLOCK_PREAMBLE ++ b.account ++ b.previous ++ b.representative
            ++ beBytes 16 b.balance ++ b.link)) ∧
    (∀ b : StateBlock,
      b.account.length = 32 → b.previous.length = 32 → b.representative.length = 32 →
      b.link.length = 32 →
      (STATE_BLOCK_PREAMBLE ++ b.account ++ b.previous ++ b.representative
          ++ beBytes 16 b.balance ++ b.link).length = 176) ∧
    (∀ (b : StateBlock) (sig : Option (List Nat)) (w : Option Nat) (st : Option Subtype),
      BlockHasher.hash_state_block { b with signature := sig, work := w, subtype := st }
        = BlockHasher.hash_state_block b) ∧
    (encode_account c2Account
        = "nano_15ds3yajhbfcnm394ujpq3t1m1axdss3oos3xkc114tf5a5b6o8nmhaenhpe".data ∧
     encode_account c2Rep
        = "nano_1iuz18n4g4wfp9gf7p1s8qkygxw7wx9qfjq6a9aq68uyrdnningdcjontgar".data ∧
     BlockHasher.hash_state_block_parts c2Account c2Prev c2Rep 3 c2Link = c2Hash) := by
  refine ⟨fun b => rfl, ?_, fun b sig w st => rfl, ?_, ?_, ?_⟩
  · intro b h1 h2 h3 h4
    simp [STATE_BLOCK_PREAMBLE, beBytes_length, h1, h2, h3, h4]
  · decide
  · decide
  · decide

/-- C2 witness: the 176-byte layout at the documented receive block. -/
theorem C2_block_hash_witness :
    (STATE_BLOCK_PREAMBLE ++ (StateBlock.new c2Account c2Prev c2Rep 3 c2Link).account
        ++ (StateBlock.new c2Account c2Prev c2Rep 3 c2Link).previous
        ++ (StateBlock.new c2Account c2Prev c2Rep 3 c2Link).representative
        ++ beBytes 16 (StateBlock.new c2Account c2Prev c2Rep 3 c2Link).balance
        ++ (StateBlock.new c2Account c2Prev c2Rep 3 c2Link).link).length = 176 :=
  C2_block_hash.2.1 (StateBlock.new c2Account c2Prev c2Rep 3 c2Link)
    (by decide) (by decide) (by decide) (by decide)

/-! ## Block builder (`src/blocks/builder.rs`) and errors (`src/error.rs`) -/

/-- `BlockError` (`src/error.rs`). -/
inductive BlockError
  | MissingField (name : String)
  | InvalidSubtype
  | InvalidLink
  | PreviousMismatch
deriving DecidableEq, Repr

/-- The `Error` variants reachable from the block builder. -/
inductive Error
  | InvalidBlock (e : BlockError)
deriving DecidableEq, Repr

/-- `BlockBuilder`: the six hashable fields plus optional signature,
work and subtype, all staged as options. -/
structure BlockBuilder where
  account : Option (List Nat) := none
  previous : Option (List Nat) := none
  representative : Option (List Nat) := none
  balance : Option Nat := none
  link : Option (List Nat) := none
  subtype : Option Subtype := none
  signature : Option (List Nat) := none
  work : Option Nat := none
deriving DecidableEq, Repr

/-- `BlockBuilder::new`. -/
def BlockBuilder.new : BlockBuilder := {}

/-- `BlockBuilder::account`. -/
def BlockBuilder.setAccount (b : BlockBuilder) (account : List Nat) : BlockBuilder :=
  { b with account := some account }

/-- `BlockBuilder::previous`. -/
def BlockBuilder.setPrevious (b : BlockBuilder) (hash : List Nat) : BlockBuilder :=
  { b with previous := some hash }

/-- `BlockBuilder::representative`. -/
def BlockBuilder.setRepresentative (b : BlockBuilder) (account : List Nat) : BlockBuilder :=
  { b with representative := some account }

/-- `BlockBuilder::balance`. -/
def BlockBuilder.setBalance (b : BlockBuilder) (balance : Nat) : BlockBuilder :=
  { b with balance := some balance }

/-- `BlockBuilder::link`. -/
def BlockBuilder.setLink (b : BlockBuilder) (link : List Nat) : BlockBuilder :=
  { b with link := some link }

/-- `BlockBuilder::link_as_account` (`Link::from_account` is byte
identity on the public key). -/
def BlockBuilder.linkAsAccount (b : BlockBuilder) (account : List Nat) : BlockBuilder :=
  { b with link := some account }

/-- `BlockBuilder::link_as_block` (`Link::from_block_hash` is byte
identity). -/
def BlockBuilder.linkAsBlock (b : BlockBuilder) (hash : List Nat) : BlockBuilder :=
  { b with link := some hash }

/-- `BlockBuilder::subtype`. -/
def BlockBuilder.setSubtype (b : BlockBuilder) (subtype : Subtype) : BlockBuilder :=
  { b with subtype := some subtype }

/-- `BlockBuilder::work`. -/
def BlockBuilder.setWork (b : BlockBuilder) (work : Nat) : BlockBuilder :=
  { b with work := some work }

/-- `BlockBuilder::signature`. -/
def BlockBuilder.setSignature (b : BlockBuilder) (signature : List Nat) : BlockBuilder :=
  { b with signature := some signature }

/-- `BlockBuilder::build_unsigned`: require the five hashable fields in
order, reporting the first missing one. -/
def BlockBuilder.build_unsigned (b : BlockBuilder) : Except Error StateBlock :=
  match b.account with
  | none => .error (.InvalidBlock (.MissingField "account"))
  | some account =>
    match b.previous with
    | none => .error (.InvalidBlock (.MissingField "previous"))
    | some previous =>
      match b.representative with
      | none => .error (.InvalidBlock (.MissingField "representative"))
      | some representative =>
        match b.balance with
        | none => .error (.InvalidBlock (.MissingField "balance"))
        | some balance =>
          match b.link with
          | none => .error (.InvalidBlock (.MissingField "link"))
          | some link =>
            .ok { StateBlock.new account previous representative balance link with
              subtype := b.subtype }

/-- `BlockBuilder::sign`: sign only if the builder already builds;
otherwise leave the builder untouched. -/
def BlockBuilder.sign (b : BlockBuilder) (keypair : KeyPair) : BlockBuilder :=
  match b.build_unsigned with
  | .ok block => { b with signature := some (BlockSigner.sign block keypair) }
  | .error _ => b

/-- `BlockBuilder::build`: the unsigned block plus the stored signature
and work. -/
def BlockBuilder.build (b : BlockBuilder) : Except Error StateBlock :=
  match b.build_unsigned with
  | .ok block => .ok { block with signature := b.signature, work := b.work }
  | .error e => .error e

/-! ## Block creation flows (`src/blocks/state.rs`,
`src/wallet/account.rs`) -/

/-- `create_send_block`: balance is
`current_balance.checked_sub(amount).unwrap_or(Raw::ZERO)`; the
`.expect` on `build` is modelled by returning the `Except` directly. -/
def create_send_block (keypair : KeyPair) (previous representative : List Nat)
    (current_balance amount : Nat) (destination : List Nat) (work : Option Nat) :
    Except Error StateBlock :=
  let new_balance := (Raw.checked_sub current_balance amount).getD 0
  let builder := (((((BlockBuilder.new.setAccount keypair.account).setPrevious
    previous).setRepresentative representative).setBalance new_balance).linkAsAccount
    destination).setSubtype .Send |>.sign keypair
  let builder := match work with
    | some w => builder.setWork w
    | none => builder
  builder.build

/-- `create_receive_block`: balance is
`current_balance.checked_add(amount).unwrap_or(Raw::MAX)`. -/
def create_receive_block (keypair : KeyPair) (previous representative : List Nat)
    (current_balance amount : Nat) (source_hash : List Nat) (work : Option Nat) :
    Except Error StateBlock :=
  let new_balance := (Raw.checked_add current_balance amount).getD U128_MAX
  let builder := (((((BlockBuilder.new.setAccount keypair.account).setPrevious
    previous).setRepresentative representative).setBalance new_balance).linkAsBlock
    source_hash).setSubtype .Receive |>.sign keypair
  let builder := match work with
    | some w => builder.setWork w
    | none => builder
  builder.build

/-- `create_open_block`: previous is zero, balance is the received
amount. -/
def create_open_block (keypair : KeyPair) (representative : List Nat) (amount : Nat)
    (source_hash : List Nat) (work : Option Nat) : Except Error StateBlock :=
  let builder := (((((BlockBuilder.new.setAccount keypair.account).setPrevious
    (List.replicate 32 0)).setRepresentative representative).setBalance amount).linkAsBlock
    source_hash).setSubtype .Open |>.sign keypair
  let builder := match work with
    | some w => builder.setWork w
    | none => builder
  builder.build

/-- `create_change_block`: balance passes through unchanged, link is
zero. -/
def create_change_block (keypair : KeyPair) (previous new_representative : List Nat)
    (balance : Nat) (work : Option Nat) : Except Error StateBlock :=
  let builder := (((((BlockBuilder.new.setAccount keypair.account).setPrevious
    previous).setRepresentative new_representative).setBalance balance).setLink
    (List.replicate 32 0)).setSubtype .Change |>.sign keypair
  let builder := match work with
    | some w => builder.setWork w
    | none => builder
  builder.build

/-- `WalletAccount::create_send_and_change`: a send whose
representative is replaced in the same block; balance is
`current_balance.checked_sub(amount).unwrap_or(Raw::ZERO)`. -/
def create_send_and_change (keypair : KeyPair) (previous new_representative : List Nat)
    (current_balance amount : Nat) (destination : List Nat) (work : Option Nat) :
    Except Error StateBlock :=
  let new_balance := (Raw.checked_sub current_balance amount).getD 0
  let builder := (((((BlockBuilder.new.setAccount keypair.account).setPrevious
    previous).setRepresentative new_representative).setBalance new_balance).linkAsAccount
    destination).setSubtype .Send |>.sign keypair
  let builder := match work with
    | some w => builder.setWork w
    | none => builder
  builder.build

theorem checked_sub_getD (a b : Nat) : (Raw.checked_sub a b).getD 0 = a - b := by
  unfold Raw.checked_sub
  by_cases h : b ≤ a
  · rw [if_pos h]
    rfl
  · rw [if_neg h]
    show 0 = a - b
    omega

theorem checked_add_getD (a b : Nat) :
    (Raw.checked_add a b).getD U128_MAX = Raw.saturating_add a b := by
  unfold Raw.checked_add Raw.saturating_add
  by_cases h : a + b ≤ U128_MAX
  · rw [if_pos h]
    show a + b = min (a + b) U128_MAX
    omega
  · rw [if_neg h]
    show U128_MAX = min (a + b) U128_MAX
    omega

/-! ## Claim C6: balance arithmetic of the block-creation flows -/

/-- C6: a send block (including `create_send_and_change`) carries
`saturating_sub(current, amount)` (zero on underflow), a receive block
carries `saturating_add(current, amount)`, a change block carries the
current balance unchanged, and an open block carries exactly the
received amount. -/
theorem C6_balance_arithmetic :
    (∀ (kp : KeyPair) (prev rep dest : List Nat) (cur amt : Nat) (w : Option Nat),
      (create_send_block kp prev rep cur amt dest w).map (fun b => b.balance)
        = .ok (Raw.saturating_sub cur amt)) ∧
    (∀ (kp : KeyPair) (prev rep dest : List Nat) (cur amt : Nat) (w : Option Nat),
      (create_send_and_change kp prev rep cur amt dest w).map (fun b => b.balance)
        = .ok (Raw.saturating_sub cur amt)) ∧
    (∀ (kp : KeyPair) (prev rep src : List Nat) (cur amt : Nat) (w : Option Nat),
      (create_receive_block kp prev rep cur amt src w).map (fun b => b.balance)
        = .ok (Raw.saturating_add cur amt)) ∧
    (∀ (kp : KeyPair) (prev rep : List Nat) (bal : Nat) (w : Option Nat),
      (create_change_block kp prev rep bal w).map (fun b => b.balance) = .ok bal) ∧
    (∀ (kp : KeyPair) (rep src : List Nat) (amt : Nat) (w : Option Nat),
      (create_open_block kp rep amt src w).map (fun b => b.balance) = .ok amt) := by
  refine ⟨?_, ?_, ?_, ?_, ?_⟩
  · intro kp prev rep dest cur amt w
    cases w with
    | none =>
      show Except.ok ((Raw.checked_sub cur amt).getD 0) = _
      rw [checked_sub_getD]
      rfl
    | some wv =>
      show Except.ok ((Raw.checked_sub cur amt).getD 0) = _
      rw [checked_sub_getD]
      rfl
  · intro kp prev rep dest cur amt w
    cases w with
    | none =>
      show Except.ok ((Raw.checked_sub cur amt).getD 0) = _
      rw [checked_sub_getD]
      rfl
    | some wv =>
      show Except.ok ((Raw.checked_sub cur amt).getD 0) = _
      rw [checked_sub_getD]
      rfl
  · intro kp prev rep src cur amt w
    cases w with
    | none =>
      show Except.ok ((Raw.checked_add cur amt).getD U128_MAX) = _
      rw [checked_add_getD]
    | some wv =>
      show Except.ok ((Raw.checked_add cur amt).getD U128_MAX) = _
      rw [checked_add_getD]
  · intro kp prev rep bal w
    cases w with
    | none => rfl
    | some wv => rfl
  · intro kp rep src amt w
    cases w with
    | none => rfl
    | some wv => rfl

/-- C6 witness: the send flow at current balance 10 and amount 3, and
the underflow case 3 − 10 saturating to zero. -/
theorem C6_balance_arithmetic_witness :
    (create_send_block ⟨[], [], 0, []⟩ [] [] 10 3 [] none).map (fun b => b.balance)
      = .ok (Raw.saturating_sub 10 3) ∧
    (create_send_block ⟨[], [], 0, []⟩ [] [] 3 10 [] none).map (fun b => b.balance)
      = .ok (Raw.saturating_sub 3 10) ∧
    (create_receive_block ⟨[], [], 0, []⟩ [] [] 5 3 [] none).map (fun b => b.balance)
      = .ok (Raw.saturating_add 5 3) :=
  ⟨C6_balance_arithmetic.1 ⟨[], [], 0, []⟩ [] [] [] 10 3 none,
   C6_balance_arithmetic.1 ⟨[], [], 0, []⟩ [] [] [] 3 10 none,
   C6_balance_arithmetic.2.2.1 ⟨[], [], 0, []⟩ [] [] [] 5 3 none⟩

/-! ## Claim C8: silent sign on an incomplete builder -/

/-- C8: for every builder state missing at least one of the five
required fields, `sign(keypair)` is a silent no-op — it returns the
builder with every field (including the stored signature) exactly as
before and reports no error; the missing field surfaces only from
`build()` as `InvalidBlock(MissingField(name))`. -/
theorem C8_sign_incomplete (b : BlockBuilder) (kp : KeyPair)
    (h : b.account = none ∨ b.previous = none ∨ b.representative = none ∨
      b.balance = none ∨ b.link = none) :
    b.sign kp = b ∧ ∃ name, b.build = .error (.InvalidBlock (.MissingField name)) := by
  have herr : ∃ name, b.build_unsigned = .error (.InvalidBlock (.MissingField name)) := by
    cases hacc : b.account with
    | none => exact ⟨"account", by simp only [BlockBuilder.build_unsigned, hacc]⟩
    | some acc =>
      cases hprev : b.previous with
      | none => exact ⟨"previous", by simp only [BlockBuilder.build_unsigned, hacc, hprev]⟩
      | some prev =>
        cases hrep : b.representative with
        | none =>
          exact ⟨"representative",
            by simp only [BlockBuilder.build_unsigned, hacc, hprev, hrep]⟩
        | some rep =>
          cases hbal : b.balance with
          | none =>
            exact ⟨"balance",
              by simp only [BlockBuilder.build_unsigned, hacc, hprev, hrep, hbal]⟩
          | some bal =>
            cases hlink : b.link with
            | none =>
              exact ⟨"link",
                by simp only [BlockBuilder.build_unsigned, hacc, hprev, hrep, hbal, hlink]⟩
            | some l =>
              rcases h with h | h | h | h | h <;> simp_all
  obtain ⟨name, hname⟩ := herr
  refine ⟨?_, name, ?_⟩
  · simp only [BlockBuilder.sign, hname]
  · simp only [BlockBuilder.build, hname]

/-- C8 witness: the empty builder signs to itself and builds to a
missing-field error. -/
theorem C8_sign_incomplete_witness :
    BlockBuilder.new.sign ⟨[], [], 0, []⟩ = BlockBuilder.new ∧
    ∃ name, BlockBuilder.new.build = .error (.InvalidBlock (.MissingField name)) :=
  C8_sign_incomplete BlockBuilder.new ⟨[], [], 0, []⟩ (Or.inl rfl)

/-! ### List `set` utilities for the bit-flip analysis -/

theorem take_set_lt {α : Type} (l : List α) (i n : Nat) (a : α) (h : i < n) :
    (l.set i a).take n = (l.take n).set i a := by
  induction l generalizing i n with
  | nil => simp
  | cons x xs ih =>
    cases n with
    | zero => omega
    | succ m =>
      cases i with
      | zero => simp [List.set]
      | succ j =>
        simp only [List.set, List.take]
        rw [ih j m (by omega)]

theorem drop_set_lt {α : Type} (l : List α) (i n : Nat) (a : α) (h : i < n) :
    (l.set i a).drop n = l.drop n := by
  induction l generalizing i n with
  | nil => simp
  | cons x xs ih =>
    cases n with
    | zero => omega
    | succ m =>
      cases i with
      | zero => simp [List.set]
      | succ j =>
        simp only [List.set, List.drop]
        exact ih j m (by omega)

theorem take_set_ge {α : Type} (l : List α) (i n : Nat) (a : α) (h : n ≤ i) :
    (l.set i a).take n = l.take n := by
  induction l generalizing i n with
  | nil => simp
  | cons x xs ih =>
    cases n with
    | zero => simp
    | succ m =>
      cases i with
      | zero => omega
      | succ j =>
        simp only [List.set, List.take]
        rw [ih j m (by omega)]

theorem drop_set_ge {α : Type} (l : List α) (i n : Nat) (a : α) (h : n ≤ i) :
    (l.set i a).drop n = (l.drop n).set (i - n) a := by
  induction l generalizing i n with
  | nil => simp
  | cons x xs ih =>
    cases n with
    | zero => simp
    | succ m =>
      cases i with
      | zero => omega
      | succ j =>
        simp only [List.set, List.drop]
        rw [ih j m (by omega)]
        congr 1
        omega

theorem getD_set_self {α : Type} (l : List α) (i : Nat) (a d : α) (h : i < l.length) :
    (l.set i a).getD i d = a := by
  induction l generalizing i with
  | nil => simp at h
  | cons x xs ih =>
    cases i with
    | zero => rfl
    | succ j =>
      simp only [List.set, List.getD, List.getElem?_cons_succ] at ih ⊢
      exact ih j (by simpa using h)

/-- Changing one entry to a different value changes the list. -/
theorem set_ne_of_ne {α : Type} (l : List α) (i : Nat) (a d : α) (h : i < l.length)
    (hne : a ≠ l.getD i d) : l.set i a ≠ l := by
  intro heq
  have h2 : (l.set i a).getD i d = l.getD i d := by rw [heq]
  rw [getD_set_self l i a d h] at h2
  exact hne h2

/-- A 5-bit flip always changes a 5-bit value and preserves its range. -/
theorem xor_flip_facts (v t : Nat) (hv : v < 32) (ht : t < 5) :
    Nat.xor v (2 ^ t) ≠ v ∧ Nat.xor v (2 ^ t) < 32 := by
  constructor
  · intro heq
    have heq2 : v ^^^ 2 ^ t = v := heq
    have hbit := Nat.testBit_xor v (2 ^ t) t
    rw [heq2, Nat.testBit_two_pow_self] at hbit
    cases hb : v.testBit t <;> simp [hb] at hbit
  · have h2t : 2 ^ t < 32 := by
      calc 2 ^ t < 2 ^ 5 := Nat.pow_lt_pow_right (by omega) ht
        _ = 32 := by norm_num
    exact Nat.xor_lt_two_pow (n := 5) (by norm_num [hv]) (by norm_num [h2t])

/-- Positional injectivity of the radix-32 value of a digit list. -/
theorem b32Num_inj (vs vs2 : List Nat) (hlen : vs.length = vs2.length)
    (hb : ∀ v ∈ vs, v < 32) (hb2 : ∀ v ∈ vs2, v < 32)
    (heq : b32Num vs = b32Num vs2) : vs = vs2 := by
  induction vs generalizing vs2 with
  | nil =>
    cases vs2 with
    | nil => rfl
    | cons w ws => simp at hlen
  | cons v vt ih =>
    cases vs2 with
    | nil => simp at hlen
    | cons w ws =>
      have hlen2 : vt.length = ws.length := by simpa using hlen
      rw [b32Num_cons, b32Num_cons, hlen2] at heq
      have hvt : b32Num vt < 32 ^ ws.length := by
        rw [← hlen2]
        exact b32Num_lt vt (fun x hx => hb x (List.mem_cons_of_mem _ hx))
      have hws : b32Num ws < 32 ^ ws.length := b32Num_lt ws
        (fun x hx => hb2 x (List.mem_cons_of_mem _ hx))
      have hv : v = w := by
        by_contra hne
        rcases Nat.lt_or_ge v w with hlt | hge
        · have : v * 32 ^ ws.length + 32 ^ ws.length ≤ w * 32 ^ ws.length := by
            calc v * 32 ^ ws.length + 32 ^ ws.length = (v + 1) * 32 ^ ws.length := by ring
              _ ≤ w * 32 ^ ws.length := Nat.mul_le_mul_right _ (by omega)
          omega
        · have hgt : w < v := by omega
          have : w * 32 ^ ws.length + 32 ^ ws.length ≤ v * 32 ^ ws.length := by
            calc w * 32 ^ ws.length + 32 ^ ws.length = (w + 1) * 32 ^ ws.length := by ring
              _ ≤ v * 32 ^ ws.length := Nat.mul_le_mul_right _ (by omega)
          omega
      subst hv
      have htails : b32Num vt = b32Num ws := by omega
      rw [ih ws hlen2 (fun x hx => hb x (List.mem_cons_of_mem _ hx))
        (fun x hx => hb2 x (List.mem_cons_of_mem _ hx)) htails]

/-- Every successfully decoded character list is alphabet-valid, with
values below 32. -/
theorem decLoopTail_chars : ∀ (cs : List Char) (bits bc bi : Nat) (out : List Nat),
    decLoopTail cs bits bc bi = some out →
    ∃ vs : List Nat, cs.map base32_char_value = vs.map some ∧ ∀ v ∈ vs, v < 32 := by
  intro cs
  induction cs with
  | nil =>
    intro bits bc bi out _
    exact ⟨[], rfl, fun v hv => by cases hv⟩
  | cons c ct ih =>
    intro bits bc bi out h
    cases hcv : base32_char_value c with
    | none =>
      unfold decLoopTail at h
      rw [hcv] at h
      simp at h
    | some v =>
      rw [decLoopTail_cons c ct bits bc bi v hcv] at h
      by_cases hcond : 8 ≤ bc + 5 ∧ bi < 32
      · rw [if_pos hcond] at h
        cases hrec : decLoopTail ct ((bits * 2 ^ 5 + v) % 2 ^ (bc + 5 - 8)) (bc + 5 - 8)
            (bi + 1) with
        | none => rw [hrec] at h; simp at h
        | some out2 =>
          obtain ⟨vs, hmap, hvs⟩ := ih _ _ _ _ hrec
          refine ⟨v :: vs, ?_, ?_⟩
          · simp [hcv, hmap]
          · intro x hx
            rcases List.mem_cons.mp hx with rfl | hx2
            · exact base32_char_value_lt c x hcv
            · exact hvs x hx2
      · rw [if_neg hcond] at h
        obtain ⟨vs, hmap, hvs⟩ := ih _ _ _ _ h
        refine ⟨v :: vs, ?_, ?_⟩
        · simp [hcv, hmap]
        · intro x hx
          rcases List.mem_cons.mp hx with rfl | hx2
          · exact base32_char_value_lt c x hcv
          · exact hvs x hx2

theorem list_eq_eight {α : Type} (l : List α) (h : l.length = 8) :
    ∃ a b c d e f g i, l = [a, b, c, d, e, f, g, i] := by
  cases l with
  | nil => simp at h
  | cons a l1 =>
  cases l1 with
  | nil => simp at h
  | cons b l2 =>
  cases l2 with
  | nil => simp at h
  | cons c l3 =>
  cases l3 with
  | nil => simp at h
  | cons d l4 =>
  cases l4 with
  | nil => simp at h
  | cons e l5 =>
  cases l5 with
  | nil => simp at h
  | cons f l6 =>
  cases l6 with
  | nil => simp at h
  | cons g l7 =>
  cases l7 with
  | nil => simp at h
  | cons i l8 =>
  cases l8 with
  | cons x l9 => simp at h
  | nil => exact ⟨a, b, c, d, e, f, g, i, rfl⟩

/-- Read off one position of a value-map relation as a `getD` fact. -/
theorem map_some_getD (cs : List Char) (vs : List Nat)
    (hmap : cs.map base32_char_value = vs.map some) (i : Nat) (hi : i < cs.length) :
    base32_char_value (cs.getD i ' ') = some (vs.getD i 0) := by
  have hlen : vs.length = cs.length := by
    have := congrArg List.length hmap
    simpa using this.symm
  have h1 : (cs.map base32_char_value)[i]? = (vs.map some)[i]? := by rw [hmap]
  rw [List.getElem?_map, List.getElem?_map] at h1
  have hc : cs[i]? = some (cs.getD i ' ') := by
    rw [List.getD_eq_getElem?_getD]
    cases h2 : cs[i]? with
    | none => rw [List.getElem?_eq_none_iff] at h2; omega
    | some c => rfl
  have hw : vs[i]? = some (vs.getD i 0) := by
    rw [List.getD_eq_getElem?_getD]
    cases h2 : vs[i]? with
    | none => rw [List.getElem?_eq_none_iff] at h2; omega
    | some w => rfl
  rw [hc, hw] at h1
  simpa using h1

theorem getD_drop_eq {α : Type} (l : List α) (n i : Nat) (d : α) :
    (l.drop n).getD i d = l.getD (n + i) d := by
  rw [List.getD_eq_getElem?_getD, List.getD_eq_getElem?_getD, List.getElem?_drop]

theorem getD_take_eq {α : Type} (l : List α) (n i : Nat) (d : α) (h : i < n) :
    (l.take n).getD i d = l.getD i d := by
  rw [List.getD_eq_getElem?_getD, List.getD_eq_getElem?_getD, List.getElem?_take,
    if_pos h]

/-- The five big-endian bytes of a 40-bit value, spelled out. -/
theorem beBytes_five (x : Nat) : beBytes 5 x
    = [x / 2 ^ 32 % 256, x / 2 ^ 24 % 256, x / 2 ^ 16 % 256, x / 2 ^ 8 % 256, x % 256] := by
  show [x / 2 ^ (8 * 4) % 256, x / 2 ^ (8 * 3) % 256, x / 2 ^ (8 * 2) % 256,
    x / 2 ^ (8 * 1) % 256, x / 2 ^ (8 * 0) % 256] = _
  norm_num

/-- `decode_base32_40` on alphabet-valid characters of values `vs`
returns the five big-endian bytes of the 40-bit value `b32Num vs`. -/
theorem decode_base32_40_values (cs : List Char) (vs : List Nat)
    (hlen : cs.length = 8) (hmap : cs.map base32_char_value = vs.map some) :
    decode_base32_40 cs = some (beBytes 5 (b32Num vs)) := by
  obtain ⟨c0, c1, c2, c3, c4, c5, c6, c7, rfl⟩ := list_eq_eight cs hlen
  have hvlen : vs.length = 8 := by
    have := congrArg List.length hmap
    simpa using this.symm
  obtain ⟨v0, v1, v2, v3, v4, v5, v6, v7, rfl⟩ := list_eq_eight vs hvlen
  simp only [List.map_cons, List.map_nil, List.cons.injEq, and_true] at hmap
  obtain ⟨h0, h1, h2, h3, h4, h5, h6, h7⟩ := hmap
  have hC : b32Num [v0, v1, v2, v3, v4, v5, v6, v7]
      = ((((((v0 * 2 ^ 5 + v1) * 2 ^ 5 + v2) * 2 ^ 5 + v3) * 2 ^ 5 + v4)
        * 2 ^ 5 + v5) * 2 ^ 5 + v6) * 2 ^ 5 + v7 := by
    show ((((((((0 * 32 + v0) * 32 + v1) * 32 + v2) * 32 + v3) * 32 + v4) * 32 + v5)
      * 32 + v6) * 32 + v7) = _
    norm_num
  simp only [decode_base32_40, h0, h1, h2, h3, h4, h5, h6, h7]
  rw [beBytes_five, hC]

/-- Inversion of a successful checksum decode: all eight characters are
alphabet-valid, with values below 32. -/
theorem decode_base32_40_inv (cs : List Char) (out : List Nat) (hlen : cs.length = 8)
    (h : decode_base32_40 cs = some out) :
    ∃ vs : List Nat, cs.map base32_char_value = vs.map some ∧
      (∀ v ∈ vs, v < 32) ∧ vs.length = 8 := by
  obtain ⟨c0, c1, c2, c3, c4, c5, c6, c7, rfl⟩ := list_eq_eight cs hlen
  cases h0 : base32_char_value c0 with
  | none => simp only [decode_base32_40, h0] at h; cases h
  | some v0 =>
  cases h1 : base32_char_value c1 with
  | none => simp only [decode_base32_40, h0, h1] at h; cases h
  | some v1 =>
  cases h2 : base32_char_value c2 with
  | none => simp only [decode_base32_40, h0, h1, h2] at h; cases h
  | some v2 =>
  cases h3 : base32_char_value c3 with
  | none => simp only [decode_base32_40, h0, h1, h2, h3] at h; cases h
  | some v3 =>
  cases h4 : base32_char_value c4 with
  | none => simp only [decode_base32_40, h0, h1, h2, h3, h4] at h; cases h
  | some v4 =>
  cases h5 : base32_char_value c5 with
  | none => simp only [decode_base32_40, h0, h1, h2, h3, h4, h5] at h; cases h
  | some v5 =>
  cases h6 : base32_char_value c6 with
  | none => simp only [decode_base32_40, h0, h1, h2, h3, h4, h5, h6] at h; cases h
  | some v6 =>
  cases h7 : base32_char_value c7 with
  | none => simp only [decode_base32_40, h0, h1, h2, h3, h4, h5, h6, h7] at h; cases h
  | some v7 =>
  refine ⟨[v0, v1, v2, v3, v4, v5, v6, v7], ?_, ?_, rfl⟩
  · simp [h0, h1, h2, h3, h4, h5, h6, h7]
  · intro v hv
    simp only [List.mem_cons, List.not_mem_nil, or_false] at hv
    rcases hv with rfl | rfl | rfl | rfl | rfl | rfl | rfl | rfl
    · exact base32_char_value_lt c0 v h0
    · exact base32_char_value_lt c1 v h1
    · exact base32_char_value_lt c2 v h2
    · exact base32_char_value_lt c3 v h3
    · exact base32_char_value_lt c4 v h4
    · exact base32_char_value_lt c5 v h5
    · exact base32_char_value_lt c6 v h6
    · exact base32_char_value_lt c7 v h7

/-- Inversion of a successful payload decode at the first character. -/
theorem decode_base32_256_inv (c : Char) (rest : List Char) (out : List Nat)
    (hlen : (c :: rest).length = 52) (h : decode_base32_256 (c :: rest) = some out) :
    ∃ v, base32_char_value c = some v ∧ decLoopTail rest (v % 2) 1 0 = some out := by
  cases hcv : base32_char_value c with
  | none => rw [decode_base32_256_cons_none c rest hcv] at h; cases h
  | some v => rw [decode_base32_256_cons c rest v hlen hcv] at h; exact ⟨v, rfl, h⟩

/-- Flipping a padding bit (bit 1 to 4) of a 5-bit value keeps its low bit. -/
theorem xor_mod2_high : ∀ v < 32, ∀ t < 5, 1 ≤ t → Nat.xor v (2 ^ t) % 2 = v % 2 := by
  decide

/-- Flipping bit 0 of a 5-bit value changes its low bit. -/
theorem xor_mod2_low : ∀ v < 32, Nat.xor v (2 ^ 0) % 2 ≠ v % 2 := by decide

/-- Two 40-bit values with the same five big-endian bytes are equal. -/
theorem bytes40_inj (x y : Nat) (hx : x < 2 ^ 40) (hy : y < 2 ^ 40)
    (h : ([x / 2 ^ 32 % 256, x / 2 ^ 24 % 256, x / 2 ^ 16 % 256, x / 2 ^ 8 % 256,
        x % 256] : List Nat)
      = [y / 2 ^ 32 % 256, y / 2 ^ 24 % 256, y / 2 ^ 16 % 256, y / 2 ^ 8 % 256,
        y % 256]) : x = y := by
  simp only [List.cons.injEq, and_true] at h
  obtain ⟨h0, h1, h2, h3, h4⟩ := h
  omega

/-- Big-endian byte images of distinct values below `2 ^ (8 * k)` are
distinct. -/
theorem beBytes_ne (k n x y : Nat) (hkn : 8 * k = n) (hx : x < 2 ^ n) (hy : y < 2 ^ n)
    (hne : x ≠ y) : beBytes k x ≠ beBytes k y := by
  intro he
  have h2 := congrArg beNum he
  rw [beNum_beBytes, beNum_beBytes, hkn, Nat.mod_eq_of_lt hx, Nat.mod_eq_of_lt hy] at h2
  exact hne h2

/-- Direct-success form of `decode_account_data`. -/
theorem decode_account_data_eq (data : List Char) (pk cs : List Nat)
    (hlen : data.length = 60)
    (hp : decode_base32_256 (data.take 52) = some pk)
    (hq : decode_base32_40 (data.drop 52) = some cs)
    (hck : cs.reverse = blake2b 5 pk) :
    decode_account_data data = .ok pk := by
  unfold decode_account_data
  rw [if_neg (by omega), hp, hq]
  show (if cs.reverse = blake2b 5 pk then (Except.ok pk : Except AccountError (List Nat))
    else Except.error AccountError.ChecksumMismatch) = Except.ok pk
  rw [if_pos hck]

/-- Direct checksum-failure form of `decode_account_data`. -/
theorem decode_account_data_mismatch (data : List Char) (pk cs : List Nat)
    (hlen : data.length = 60)
    (hp : decode_base32_256 (data.take 52) = some pk)
    (hq : decode_base32_40 (data.drop 52) = some cs)
    (hck : cs.reverse ≠ blake2b 5 pk) :
    decode_account_data data = .error .ChecksumMismatch := by
  unfold decode_account_data
  rw [if_neg (by omega), hp, hq]
  show (if cs.reverse = blake2b 5 pk then (Except.ok pk : Except AccountError (List Nat))
    else Except.error AccountError.ChecksumMismatch) = Except.error AccountError.ChecksumMismatch
  rw [if_neg hck]

/-- The decoder loop on a full 51-character payload tail. -/
theorem decLoopTail_payload (cs : List Char) (vs : List Nat) (bits : Nat)
    (hmap : cs.map base32_char_value = vs.map some)
    (hvs : ∀ v ∈ vs, v < 32) (hlen : vs.length = 51) (hbits : bits < 2) :
    decLoopTail cs bits 1 0 = some (beBytes 32 (bits * 2 ^ 255 + b32Num vs)) := by
  have h := decLoopTail_spec cs vs bits 1 0 hmap hvs (by omega) (by omega)
    (by rw [hlen]) (by rw [hlen])
  rw [hlen, show (1 + 5 * 51) / 8 = 32 by norm_num, show 5 * 51 = 255 by norm_num] at h
  exact h

/-- A radix-32 value on 51 digits stays below `2 ^ 255`. -/
theorem b32Num_lt_255 (vs : List Nat) (hlen : vs.length = 51) (hb : ∀ v ∈ vs, v < 32) :
    b32Num vs < 2 ^ 255 := by
  have h := b32Num_lt vs hb
  rw [hlen, pow32_eq, show 5 * 51 = 255 by norm_num] at h
  exact h

/-- A radix-32 value on 8 digits stays below `2 ^ 40`. -/
theorem b32Num_lt_40 (vs : List Nat) (hlen : vs.length = 8) (hb : ∀ v ∈ vs, v < 32) :
    b32Num vs < 2 ^ 40 := by
  have h := b32Num_lt vs hb
  rw [hlen, pow32_eq, show 5 * 8 = 40 by norm_num] at h
  exact h

/-- Value bounds survive a single-position update by a bounded value. -/
theorem set_bound (vs : List Nat) (i w : Nat) (hb : ∀ v ∈ vs, v < 32) (hw : w < 32) :
    ∀ v ∈ vs.set i w, v < 32 := by
  intro v hv
  rcases List.mem_or_eq_of_mem_set hv with h1 | rfl
  · exact hb v h1
  · exact hw

/-- Replacing one character by the alphabet character of a 5-bit value
updates the value map pointwise. -/
theorem map_set_some (cs : List Char) (vs : List Nat) (i w : Nat)
    (hmap : cs.map base32_char_value = vs.map some) (hw : w < 32) :
    (cs.set i (base32Char w)).map base32_char_value = (vs.set i w).map some := by
  rw [List.map_set, List.map_set, hmap, base32_char_value_base32Char w hw]

/-- Two reassembled 256-bit payload values differ whenever the pad bit
or the digit list differs. -/
theorem payload_val_ne (b1 b2 : Nat) (vs1 vs2 : List Nat)
    (h1 : b1 < 2) (h2 : b2 < 2)
    (hl1 : vs1.length = 51) (hl2 : vs2.length = 51)
    (hb1 : ∀ v ∈ vs1, v < 32) (hb2 : ∀ v ∈ vs2, v < 32)
    (hne : b1 ≠ b2 ∨ vs1 ≠ vs2) :
    b1 * 2 ^ 255 + b32Num vs1 ≠ b2 * 2 ^ 255 + b32Num vs2 := by
  have hB1 := b32Num_lt_255 vs1 hl1 hb1
  have hB2 := b32Num_lt_255 vs2 hl2 hb2
  intro he
  rcases hne with hb | hv
  · omega
  · have hbe : b32Num vs1 = b32Num vs2 := by omega
    exact hv (b32Num_inj vs1 vs2 (by omega) hb1 hb2 hbe)

/-- A flipped payload decoding to a different key either trips the
checksum or exhibits a concrete Blake2b-40 collision that the decoder
accepts. -/
theorem payload_flip_disjunct (pre data2 : List Char) (pk pk2 cs : List Nat)
    (hred : decode_account (pre ++ data2) = decode_account_data data2)
    (hlen : data2.length = 60)
    (hp : decode_base32_256 (data2.take 52) = some pk2)
    (hq : decode_base32_40 (data2.drop 52) = some cs)
    (hck : cs.reverse = blake2b 5 pk)
    (hne : pk2 ≠ pk) :
    decode_account (pre ++ data2) = .error .ChecksumMismatch ∨
      ∃ pk3, pk3 ≠ pk ∧ blake2b 5 pk3 = blake2b 5 pk ∧
        decode_account (pre ++ data2) = .ok pk3 := by
  rw [hred]
  by_cases hcol : blake2b 5 pk2 = blake2b 5 pk
  · right
    refine ⟨pk2, hne, hcol, ?_⟩
    apply decode_account_data_eq data2 pk2 cs hlen hp hq
    rw [hck]
    exact hcol.symm
  · left
    apply decode_account_data_mismatch data2 pk2 cs hlen hp hq
    rw [hck]
    exact fun he => hcol he.symm

set_option maxRecDepth 100000 in
set_option maxHeartbeats 4000000 in
/-- C5 (counterexample): flipping bit 1 of the first data symbol of the
documented test address (`'3'`, value 1, becomes `'5'`, value 3)
produces a different alphabet-valid string of the same length that
still decodes to the same key — the first symbol contributes only its
lowest bit, so a padding-bit flip never reaches the checksum. -/
theorem C5_checksum_sensitivity_cx :
    (testAddrNano.drop 5).set 0 (base32Char (Nat.xor 1 (2 ^ 1))) ≠ testAddrNano.drop 5 ∧
    decode_account (ACCOUNT_PREFIX_NANO
        ++ (testAddrNano.drop 5).set 0 (base32Char (Nat.xor 1 (2 ^ 1))))
      = .ok testPk := by
  constructor
  · decide
  · decide

/-- C5 (amended): flipping a single bit of one symbol of a valid
address's 60-character data portion — replacing symbol `j` of value `v`
by the alphabet character of `Nat.xor v (2 ^ t)` — behaves as follows:
a flip of a padding bit (`j = 0`, `1 ≤ t < 5`) is silently accepted and
decodes to the same key; a flip in the checksum symbols (`52 ≤ j`)
always fails with `ChecksumMismatch`; a flip of a meaningful payload
bit (`j = 0, t = 0`, or `1 ≤ j ≤ 51`) fails with `ChecksumMismatch`
unless it exhibits a concrete Blake2b-40 collision, in which case the
decoder accepts the flipped string with a different key. -/
theorem C5_checksum_sensitivity (pre data : List Char) (pk : List Nat) (j t v : Nat)
    (hpre : pre = ACCOUNT_PREFIX_NANO ∨ pre = ACCOUNT_PREFIX_XNO)
    (hok : decode_account (pre ++ data) = .ok pk)
    (hj : j < 60) (ht : t < 5)
    (hv : base32_char_value (data.getD j ' ') = some v) :
    (j = 0 → 1 ≤ t →
      decode_account (pre ++ data.set j (base32Char (Nat.xor v (2 ^ t)))) = .ok pk) ∧
    (52 ≤ j →
      decode_account (pre ++ data.set j (base32Char (Nat.xor v (2 ^ t))))
        = .error .ChecksumMismatch) ∧
    ((j = 0 → t = 0) → j ≤ 51 →
      decode_account (pre ++ data.set j (base32Char (Nat.xor v (2 ^ t))))
        = .error .ChecksumMismatch ∨
      ∃ pk2, pk2 ≠ pk ∧ blake2b 5 pk2 = blake2b 5 pk ∧
        decode_account (pre ++ data.set j (base32Char (Nat.xor v (2 ^ t)))) = .ok pk2) := by
  have hred : ∀ X : List Char, decode_account (pre ++ X) = decode_account_data X := by
    intro X
    rcases hpre with rfl | rfl
    · exact decode_account_nano X
    · exact decode_account_xno X
  have hdd : decode_account_data data = .ok pk := by
    rw [← hred data]
    exact hok
  obtain ⟨hlen60, hpay, cs, hcs, hck⟩ := decode_account_data_ok data pk hdd
  have hv32 : v < 32 := base32_char_value_lt _ v hv
  obtain ⟨hwne, hw32⟩ := xor_flip_facts v t hv32 ht
  refine ⟨?_, ?_, ?_⟩
  · -- padding-bit flips of the first symbol are silently accepted
    intro hj0 ht1
    have hw2 : Nat.xor v (2 ^ t) % 2 = v % 2 := xor_mod2_high v hv32 t ht ht1
    subst hj0
    cases data with
    | nil => simp at hlen60
    | cons c0 rest =>
      have hrl : rest.length = 59 := by simpa using hlen60
      have hv' : base32_char_value c0 = some v := hv
      have htake : (c0 :: rest).take 52 = c0 :: rest.take 51 := rfl
      rw [htake] at hpay
      have htl : (rest.take 51).length = 51 := by simp [List.length_take, hrl]
      obtain ⟨v0, hv0, hloop⟩ := decode_base32_256_inv c0 (rest.take 51) pk
        (by simp [htl]) hpay
      have hvv0 : v = v0 := Option.some.inj (hv'.symm.trans hv0)
      rw [← hvv0] at hloop
      have hset : (c0 :: rest).set 0 (base32Char (Nat.xor v (2 ^ t)))
          = base32Char (Nat.xor v (2 ^ t)) :: rest := rfl
      rw [hset, hred]
      refine decode_account_data_eq _ pk cs (by simp [hrl]) ?_ ?_ hck
      · have ht2 : (base32Char (Nat.xor v (2 ^ t)) :: rest).take 52
            = base32Char (Nat.xor v (2 ^ t)) :: rest.take 51 := rfl
        rw [ht2, decode_base32_256_cons _ _ (Nat.xor v (2 ^ t))
          (by simp [htl]) (base32_char_value_base32Char _ hw32), hw2]
        exact hloop
      · have hd2 : (base32Char (Nat.xor v (2 ^ t)) :: rest).drop 52 = rest.drop 51 := rfl
        have hd1 : (c0 :: rest).drop 52 = rest.drop 51 := rfl
        rw [hd2, ← hd1]
        exact hcs
  · -- checksum-region flips always trip the checksum comparison
    intro hj52
    have hdl : (data.drop 52).length = 8 := by simp [hlen60]
    obtain ⟨vs8, hmap8, hvs8, hvs8len⟩ := decode_base32_40_inv (data.drop 52) cs hdl hcs
    have hm : j - 52 < 8 := by omega
    have hvj : base32_char_value ((data.drop 52).getD (j - 52) ' ') = some v := by
      rw [getD_drop_eq, show 52 + (j - 52) = j by omega]
      exact hv
    have hvg := map_some_getD (data.drop 52) vs8 hmap8 (j - 52) (by omega)
    have hveq : v = vs8.getD (j - 52) 0 := Option.some.inj (hvj.symm.trans hvg)
    have hcso : decode_base32_40 (data.drop 52) = some (beBytes 5 (b32Num vs8)) :=
      decode_base32_40_values (data.drop 52) vs8 hdl hmap8
    have hcseq : cs = beBytes 5 (b32Num vs8) := Option.some.inj (hcs.symm.trans hcso)
    have hdropset : (data.set j (base32Char (Nat.xor v (2 ^ t)))).drop 52
        = (data.drop 52).set (j - 52) (base32Char (Nat.xor v (2 ^ t))) :=
      drop_set_ge data j 52 _ hj52
    have hmap8' := map_set_some (data.drop 52) vs8 (j - 52) (Nat.xor v (2 ^ t)) hmap8 hw32
    have hcsn : decode_base32_40 ((data.drop 52).set (j - 52) (base32Char (Nat.xor v (2 ^ t))))
        = some (beBytes 5 (b32Num (vs8.set (j - 52) (Nat.xor v (2 ^ t))))) :=
      decode_base32_40_values _ _ (by simp [hdl]) hmap8'
    have hset_ne : vs8.set (j - 52) (Nat.xor v (2 ^ t)) ≠ vs8 :=
      set_ne_of_ne vs8 (j - 52) _ 0 (by rw [hvs8len]; exact hm)
        (by rw [← hveq]; exact hwne)
    have hbne : b32Num (vs8.set (j - 52) (Nat.xor v (2 ^ t))) ≠ b32Num vs8 := by
      intro he
      exact hset_ne (b32Num_inj _ _ (by rw [List.length_set])
        (set_bound vs8 _ _ hvs8 hw32) hvs8 he)
    rw [hred]
    refine decode_account_data_mismatch _ pk (beBytes 5 (b32Num (vs8.set (j - 52)
      (Nat.xor v (2 ^ t))))) (by rw [List.length_set]; exact hlen60) ?_ ?_ ?_
    · rw [take_set_ge data j 52 _ hj52]
      exact hpay
    · rw [hdropset]
      exact hcsn
    · rw [← hck]
      intro he
      have h3 : beBytes 5 (b32Num (vs8.set (j - 52) (Nat.xor v (2 ^ t))))
          = beBytes 5 (b32Num vs8) := by
        rw [← hcseq]
        exact List.reverse_inj.mp he
      exact beBytes_ne 5 40 _ _ (by norm_num)
        (b32Num_lt_40 _ (by rw [List.length_set, hvs8len]) (set_bound vs8 _ _ hvs8 hw32))
        (b32Num_lt_40 vs8 hvs8len hvs8) hbne h3
  · -- meaningful payload flips: checksum mismatch or an exhibited collision
    intro hjt hj51
    cases data with
    | nil => simp at hlen60
    | cons c0 rest =>
      have hrl : rest.length = 59 := by simpa using hlen60
      have htake : (c0 :: rest).take 52 = c0 :: rest.take 51 := rfl
      rw [htake] at hpay
      have htl : (rest.take 51).length = 51 := by simp [List.length_take, hrl]
      obtain ⟨v0, hv0, hloop⟩ := decode_base32_256_inv c0 (rest.take 51) pk
        (by simp [htl]) hpay
      obtain ⟨vs51, hmap51, hvs51⟩ := decLoopTail_chars (rest.take 51) (v0 % 2) 1 0 pk hloop
      have hvs51len : vs51.length = 51 := by
        have h2 := congrArg List.length hmap51
        simp only [List.length_map] at h2
        omega
      have hXeq := decLoopTail_payload (rest.take 51) vs51 (v0 % 2) hmap51 hvs51 hvs51len
        (Nat.mod_lt _ (by omega))
      have hpkX : pk = beBytes 32 (v0 % 2 * 2 ^ 255 + b32Num vs51) :=
        Option.some.inj (hloop.symm.trans hXeq)
      have hd1 : (c0 :: rest).drop 52 = rest.drop 51 := rfl
      by_cases hj0 : j = 0
      · -- the low bit of the first symbol
        have ht0 : t = 0 := hjt hj0
        subst hj0
        subst ht0
        have hv' : base32_char_value c0 = some v := hv
        have hvv0 : v = v0 := Option.some.inj (hv'.symm.trans hv0)
        have hset : (c0 :: rest).set 0 (base32Char (Nat.xor v (2 ^ 0)))
            = base32Char (Nat.xor v (2 ^ 0)) :: rest := rfl
        have hp2 : decode_base32_256 ((base32Char (Nat.xor v (2 ^ 0)) :: rest).take 52)
            = some (beBytes 32 (Nat.xor v (2 ^ 0) % 2 * 2 ^ 255 + b32Num vs51)) := by
          have ht2 : (base32Char (Nat.xor v (2 ^ 0)) :: rest).take 52
              = base32Char (Nat.xor v (2 ^ 0)) :: rest.take 51 := rfl
          rw [ht2, decode_base32_256_cons _ _ (Nat.xor v (2 ^ 0))
            (by simp [htl]) (base32_char_value_base32Char _ hw32)]
          exact decLoopTail_payload (rest.take 51) vs51 _ hmap51 hvs51 hvs51len
            (Nat.mod_lt _ (by omega))
        have hXne : Nat.xor v (2 ^ 0) % 2 * 2 ^ 255 + b32Num vs51
            ≠ v0 % 2 * 2 ^ 255 + b32Num vs51 :=
          payload_val_ne _ _ vs51 vs51 (Nat.mod_lt _ (by omega)) (Nat.mod_lt _ (by omega))
            hvs51len hvs51len hvs51 hvs51
            (Or.inl (by rw [← hvv0]; exact xor_mod2_low v hv32))
        have hB := b32Num_lt_255 vs51 hvs51len hvs51
        have hpk2ne : beBytes 32 (Nat.xor v (2 ^ 0) % 2 * 2 ^ 255 + b32Num vs51) ≠ pk := by
          rw [hpkX]
          exact beBytes_ne 32 256 _ _ (by norm_num) (by omega) (by omega) hXne
        have hq2 : decode_base32_40 ((base32Char (Nat.xor v (2 ^ 0)) :: rest).drop 52)
            = some cs := by
          have hd2 : (base32Char (Nat.xor v (2 ^ 0)) :: rest).drop 52 = rest.drop 51 := rfl
          rw [hd2, ← hd1]
          exact hcs
        rw [hset]
        exact payload_flip_disjunct pre _ pk _ cs (hred _) (by simp [hrl]) hp2 hq2 hck hpk2ne
      · -- symbols 1 to 51
        obtain ⟨i, rfl⟩ : ∃ i, j = i + 1 := ⟨j - 1, by omega⟩
        have hi51 : i < 51 := by omega
        have hvi : base32_char_value ((rest.take 51).getD i ' ') = some v := by
          rw [getD_take_eq rest 51 i ' ' hi51]
          exact hv
        have hvg := map_some_getD (rest.take 51) vs51 hmap51 i (by rw [htl]; exact hi51)
        have hveq : v = vs51.getD i 0 := Option.some.inj (hvi.symm.trans hvg)
        have hset : (c0 :: rest).set (i + 1) (base32Char (Nat.xor v (2 ^ t)))
            = c0 :: rest.set i (base32Char (Nat.xor v (2 ^ t))) := rfl
        have htakeset : (rest.set i (base32Char (Nat.xor v (2 ^ t)))).take 51
            = (rest.take 51).set i (base32Char (Nat.xor v (2 ^ t))) :=
          take_set_lt rest i 51 _ hi51
        have hmap51' := map_set_some (rest.take 51) vs51 i (Nat.xor v (2 ^ t)) hmap51 hw32
        have hp2 : decode_base32_256 ((c0 :: rest.set i (base32Char (Nat.xor v (2 ^ t)))).take 52)
            = some (beBytes 32 (v0 % 2 * 2 ^ 255 + b32Num (vs51.set i (Nat.xor v (2 ^ t))))) := by
          have ht2 : (c0 :: rest.set i (base32Char (Nat.xor v (2 ^ t)))).take 52
              = c0 :: (rest.set i (base32Char (Nat.xor v (2 ^ t)))).take 51 := rfl
          rw [ht2, htakeset, decode_base32_256_cons _ _ v0 (by simp [htl]) hv0]
          exact decLoopTail_payload _ (vs51.set i (Nat.xor v (2 ^ t))) _ hmap51'
            (set_bound vs51 i _ hvs51 hw32) (by rw [List.length_set, hvs51len])
            (Nat.mod_lt _ (by omega))
        have hsne : vs51.set i (Nat.xor v (2 ^ t)) ≠ vs51 :=
          set_ne_of_ne vs51 i _ 0 (by rw [hvs51len]; exact hi51)
            (by rw [← hveq]; exact hwne)
        have hXne : v0 % 2 * 2 ^ 255 + b32Num (vs51.set i (Nat.xor v (2 ^ t)))
            ≠ v0 % 2 * 2 ^ 255 + b32Num vs51 :=
          payload_val_ne _ _ _ vs51 (Nat.mod_lt _ (by omega)) (Nat.mod_lt _ (by omega))
            (by rw [List.length_set, hvs51len]) hvs51len
            (set_bound vs51 i _ hvs51 hw32) hvs51 (Or.inr hsne)
        have hB1 := b32Num_lt_255 _ (show (vs51.set i (Nat.xor v (2 ^ t))).length = 51 by
          rw [List.length_set, hvs51len]) (set_bound vs51 i _ hvs51 hw32)
        have hB2 := b32Num_lt_255 vs51 hvs51len hvs51
        have hpk2ne : beBytes 32 (v0 % 2 * 2 ^ 255
            + b32Num (vs51.set i (Nat.xor v (2 ^ t)))) ≠ pk := by
          rw [hpkX]
          exact beBytes_ne 32 256 _ _ (by norm_num) (by omega) (by omega) hXne
        have hq2 : decode_base32_40 ((c0 :: rest.set i (base32Char (Nat.xor v (2 ^ t)))).drop 52)
            = some cs := by
          have hd2 : (c0 :: rest.set i (base32Char (Nat.xor v (2 ^ t)))).drop 52
              = (rest.set i (base32Char (Nat.xor v (2 ^ t)))).drop 51 := rfl
          rw [hd2, drop_set_lt rest i 51 _ hi51, ← hd1]
          exact hcs
        rw [hset]
        exact payload_flip_disjunct pre _ pk _ cs (hred _) (by simp [List.length_set, hrl])
          hp2 hq2 hck hpk2ne

set_option maxRecDepth 100000 in
set_option maxHeartbeats 4000000 in
/-- C5 witness: flipping bit 0 of checksum symbol 55 of the documented
test address (value 27, `'u'`, becomes 26, `'t'`) is rejected with
`ChecksumMismatch`. -/
theorem C5_checksum_sensitivity_witness :
    decode_account (ACCOUNT_PREFIX_NANO
        ++ (testAddrNano.drop 5).set 55 (base32Char (Nat.xor 27 (2 ^ 0))))
      = .error .ChecksumMismatch :=
  (C5_checksum_sensitivity ACCOUNT_PREFIX_NANO (testAddrNano.drop 5) testPk 55 0 27
    (Or.inl rfl) (by decide) (by decide) (by decide) (by decide)).2.1 (by decide)

end XnoConnect
